import Mathlib

/-!
Verification of the Netflix subtitle processor (scripts/netflix_subs.py).

The development shallowly embeds the validation-and-repair engine:
text is modelled as `List Char` (Python `str`), machine integers as
`Int`/`Nat` (Python ints are unbounded, so no wrapping arises),
fallible operations (Python exceptions) as `Option`, and the float
reading-speed value as `Option ℚ` (`none` standing for `float('inf')`,
the only non-finite value the program produces).  The reading speed is
modelled twice: `calc_cps` gives the exact real value of the formula
`count / (duration / 1000)`, and `calc_cps_fl` the IEEE-754 binary64
value the program actually computes — the two differ at threshold ties
(21 characters over 1400 ms is exactly 15 chars/s, but the doubles
evaluate to slightly more), so the validator compares the latter.

All definitions are translated from the source file; the comment on each
definition points to the Python function it embeds.
-/

/-- Whitespace characters, as used by Python `str.strip`/`str.split` and
the regex class `\s` on the ASCII range.  (Non-ASCII whitespace, which
Python also treats as whitespace, never occurs in the material below and
is not modelled.) -/
def isSpaceChar (c : Char) : Bool :=
  c = ' ' || c = '\t' || c = '\n' || c = '\r' || c = '\x0b' || c = '\x0c'

/-- Python `str.strip()`: remove leading and trailing whitespace. -/
def stripList (s : List Char) : List Char :=
  ((s.dropWhile isSpaceChar).reverse.dropWhile isSpaceChar).reverse

/-- Prepend a character onto the first piece of a split result (the
result of a split is never empty, so the `[]` case is unreachable). -/
def consHead (x : Char) : List (List Char) → List (List Char)
  | [] => [[x]]
  | h :: t => (x :: h) :: t

/-- Python `str.split(sep)` for a one-character separator: split at every
occurrence of `c`, keeping empty pieces (`"".split(sep) == [""]`). -/
def splitOnChar (c : Char) : List Char → List (List Char)
  | [] => [[]]
  | x :: xs =>
    if x = c then [] :: splitOnChar c xs else consHead x (splitOnChar c xs)

/-- Python `sep.join(pieces)`. -/
def joinWith (sep : List Char) : List (List Char) → List Char
  | [] => []
  | [x] => x
  | x :: y :: t => x ++ sep ++ joinWith sep (y :: t)

/-- `text.split('\n')`. -/
def splitNl (s : List Char) : List (List Char) := splitOnChar '\n' s

/-- `'\n'.join(pieces)`. -/
def joinNl (ps : List (List Char)) : List Char := joinWith ['\n'] ps

/-- Decimal digits of a natural number (fuel-driven so that the
definition is structurally recursive; fuel `n + 1` always suffices). -/
def natToDecGo : Nat → Nat → List Char
  | 0, _ => []
  | fuel + 1, n =>
    if n < 10 then [Nat.digitChar n]
    else natToDecGo fuel (n / 10) ++ [Nat.digitChar (n % 10)]

/-- Python `str(n)` for a natural number. -/
def natToDec (n : Nat) : List Char := natToDecGo (n + 1) n

/-- Numeric value of a list of decimal digits (used to model Python
`int(s)` on digit strings). -/
def parseDec (ds : List Char) : Nat :=
  ds.foldl (fun a c => 10 * a + (c.toNat - 48)) 0

/-- Python `int(s)`: strip whitespace, optional single sign, then decimal
digits; raises (`none`) otherwise.  (Underscore digit separators, which
Python also accepts, never occur in this program's data and are not
modelled.) -/
def pyInt (s : List Char) : Option Int :=
  match stripList s with
  | [] => none
  | c :: r =>
    if c = '-' then
      if r ≠ [] ∧ r.all Char.isDigit then some (-(parseDec r : Int)) else none
    else if c = '+' then
      if r ≠ [] ∧ r.all Char.isDigit then some ((parseDec r : Int)) else none
    else if (c :: r).all Char.isDigit then some ((parseDec (c :: r) : Int)) else none

/-- `time_to_ms(ts)`: `h, m, rest = ts.split(':')` (raises unless exactly
three components), `s, ms = rest.split(',')` (raises unless exactly two),
then `int(h)*3600000 + int(m)*60000 + int(s)*1000 + int(ms)`.
`none` models the raised exception. -/
def time_to_ms (ts : List Char) : Option Int :=
  match splitOnChar ':' ts with
  | [h, m, rest] =>
    match splitOnChar ',' rest with
    | [s, ms] =>
      match pyInt h, pyInt m, pyInt s, pyInt ms with
      | some hv, some mv, some sv, some msv =>
          some (hv * 3600000 + mv * 60000 + sv * 1000 + msv)
      | _, _, _, _ => none
    | _ => none
  | _ => none

/-- `time_to_ms` as used by the validators and fixers.  Every call site in
the source applies it to strings matched by the timecode regex or
produced by `ms_to_time`, on which it cannot raise; the default 0 of this
total wrapper is never reached on those inputs. -/
def tms (ts : List Char) : Int := (time_to_ms ts).getD 0

/-- Python `f"{n:02d}"` on a natural number. -/
def pad2 (n : Nat) : List Char :=
  if n < 10 then '0' :: natToDec n else natToDec n

/-- Python `f"{n:03d}"` on a natural number. -/
def pad3 (n : Nat) : List Char :=
  if n < 10 then '0' :: '0' :: natToDec n
  else if n < 100 then '0' :: natToDec n
  else natToDec n

/-- Formatting step of `ms_to_time` after the negative clamp: the local
variables `h`, `m`, `s`, `ms_part` and the f-string of the source. -/
def msFmt (n : Nat) : List Char :=
  pad2 (n / 3600000) ++ ':' :: pad2 (n % 3600000 / 60000) ++
    ':' :: pad2 (n % 60000 / 1000) ++ ',' :: pad3 (n % 1000)

/-- `ms_to_time(ms)`: clamp negatives to zero, then format as
`HH:MM:SS,mmm` (hours not wrapped, zero-padded to two digits). -/
def ms_to_time (ms : Int) : List Char :=
  msFmt (if ms < 0 then 0 else ms.toNat)

/-! Lemmas about splitting and joining. -/

theorem joinWith_append_head (sep x h : List Char) (t : List (List Char)) :
    joinWith sep ((x ++ h) :: t) = x ++ joinWith sep (h :: t) := by
  cases t with
  | nil => simp [joinWith]
  | cons y t' => simp [joinWith]

theorem consHead_ne_nil (x : Char) (l : List (List Char)) : consHead x l ≠ [] := by
  cases l <;> simp [consHead]

theorem splitOnChar_ne_nil (c : Char) (s : List Char) : splitOnChar c s ≠ [] := by
  cases s with
  | nil => simp [splitOnChar]
  | cons x xs =>
    simp only [splitOnChar]
    split
    · simp
    · exact consHead_ne_nil _ _

theorem joinNl_splitNl (s : List Char) : joinNl (splitNl s) = s := by
  induction s with
  | nil => simp [splitNl, splitOnChar, joinNl, joinWith]
  | cons x xs ih =>
    rcases h : splitOnChar '\n' xs with _ | ⟨h1, t⟩
    · exact absurd h (splitOnChar_ne_nil _ _)
    · have hred : splitNl (x :: xs) =
          if x = '\n' then [] :: h1 :: t else (x :: h1) :: t := by
        simp only [splitNl, splitOnChar, h, consHead]
      have ihj : joinWith ['\n'] (h1 :: t) = xs := by
        have hx := ih
        simp only [splitNl, h, joinNl] at hx
        exact hx
      rw [hred]
      by_cases hx : x = '\n'
      · rw [if_pos hx, hx]
        show joinWith ['\n'] ([] :: h1 :: t) = '\n' :: xs
        rw [show joinWith ['\n'] ([] :: h1 :: t) =
          [] ++ ['\n'] ++ joinWith ['\n'] (h1 :: t) from rfl, ihj]
        simp
      · rw [if_neg hx]
        show joinWith ['\n'] ((x :: h1) :: t) = x :: xs
        rw [show x :: h1 = [x] ++ h1 from rfl, joinWith_append_head, ihj]
        simp

theorem splitOnChar_of_not_mem {c : Char} {s : List Char} (h : c ∉ s) :
    splitOnChar c s = [s] := by
  induction s with
  | nil => simp [splitOnChar]
  | cons x xs ih =>
    simp only [List.mem_cons, not_or] at h
    simp only [splitOnChar, ih h.2]
    rw [if_neg (fun hx => h.1 hx.symm)]
    simp [consHead]

theorem splitOnChar_append_cons {c : Char} {xs : List Char} (ys : List Char)
    (h : c ∉ xs) : splitOnChar c (xs ++ c :: ys) = xs :: splitOnChar c ys := by
  induction xs with
  | nil => simp [splitOnChar]
  | cons x xs ih =>
    simp only [List.mem_cons, not_or] at h
    simp only [List.cons_append, splitOnChar, List.append_eq]
    rw [ih h.2, if_neg (fun hx => h.1 hx.symm)]
    simp [consHead]

/-! Lemmas about decimal rendering and parsing. -/

theorem parseDec_append_singleton (ds : List Char) (c : Char) :
    parseDec (ds ++ [c]) = 10 * parseDec ds + (c.toNat - 48) := by
  simp [parseDec, List.foldl_append]

theorem digitChar_isDigit {n : Nat} (h : n < 10) : (Nat.digitChar n).isDigit = true := by
  interval_cases n <;> decide

theorem parseDec_digitChar {n : Nat} (h : n < 10) :
    (Nat.digitChar n).toNat - 48 = n := by
  interval_cases n <;> decide

theorem natToDecGo_all_digits (fuel n : Nat) :
    (natToDecGo fuel n).all Char.isDigit = true := by
  induction fuel generalizing n with
  | zero => simp [natToDecGo]
  | succ f ih =>
    simp only [natToDecGo]
    split
    · rename_i hn
      simp [digitChar_isDigit hn]
    · rw [List.all_append]
      simp [ih, digitChar_isDigit (Nat.mod_lt n (by omega))]

theorem parseDec_natToDecGo {fuel n : Nat} (h : n < 10 ^ fuel) :
    parseDec (natToDecGo fuel n) = n := by
  induction fuel generalizing n with
  | zero =>
    simp only [pow_zero] at h
    have : n = 0 := by omega
    subst this
    simp [natToDecGo, parseDec]
  | succ f ih =>
    simp only [natToDecGo]
    split
    · rename_i hn
      simp [parseDec, parseDec_digitChar hn]
    · rename_i hn
      rw [parseDec_append_singleton, parseDec_digitChar (Nat.mod_lt n (by omega))]
      have hdiv : n / 10 < 10 ^ f := by
        rw [Nat.div_lt_iff_lt_mul (by omega : 0 < 10)]
        calc n < 10 ^ (f + 1) := h
          _ = 10 ^ f * 10 := by ring
      rw [ih hdiv]
      omega

theorem lt_ten_pow_succ (n : Nat) : n < 10 ^ (n + 1) :=
  calc n < 2 ^ n := Nat.lt_two_pow n
    _ ≤ 10 ^ n := Nat.pow_le_pow_left (by omega) n
    _ ≤ 10 ^ (n + 1) := Nat.pow_le_pow_right (by omega) (by omega)

theorem parseDec_natToDec (n : Nat) : parseDec (natToDec n) = n :=
  parseDec_natToDecGo (lt_ten_pow_succ n)

theorem natToDec_all_digits (n : Nat) : (natToDec n).all Char.isDigit = true :=
  natToDecGo_all_digits _ _

theorem natToDec_ne_nil (n : Nat) : natToDec n ≠ [] := by
  unfold natToDec natToDecGo
  split
  · simp
  · simp

theorem parseDec_cons_zero (ds : List Char) : parseDec ('0' :: ds) = parseDec ds := by
  simp [parseDec, List.foldl_cons]

theorem pad2_all_digits (n : Nat) : (pad2 n).all Char.isDigit = true := by
  unfold pad2
  split <;> simp [natToDec_all_digits]

theorem pad3_all_digits (n : Nat) : (pad3 n).all Char.isDigit = true := by
  unfold pad3
  split
  · simp [natToDec_all_digits]
  · split <;> simp [natToDec_all_digits]

theorem pad2_ne_nil (n : Nat) : pad2 n ≠ [] := by
  unfold pad2
  split
  · simp
  · exact natToDec_ne_nil n

theorem pad3_ne_nil (n : Nat) : pad3 n ≠ [] := by
  unfold pad3
  split
  · simp
  · split
    · simp
    · exact natToDec_ne_nil n

theorem parseDec_pad2 (n : Nat) : parseDec (pad2 n) = n := by
  unfold pad2
  split
  · rw [parseDec_cons_zero, parseDec_natToDec]
  · rw [parseDec_natToDec]

theorem parseDec_pad3 (n : Nat) : parseDec (pad3 n) = n := by
  unfold pad3
  split
  · rw [parseDec_cons_zero, parseDec_cons_zero, parseDec_natToDec]
  · split
    · rw [parseDec_cons_zero, parseDec_natToDec]
    · rw [parseDec_natToDec]

/-! Digit strings survive `stripList` and `pyInt`. -/

theorem isDigit_not_space {c : Char} (h : c.isDigit = true) : isSpaceChar c = false := by
  rcases hb : isSpaceChar c with _ | _
  · rfl
  · exfalso
    simp only [isSpaceChar, Bool.or_eq_true, decide_eq_true_eq] at hb
    rcases hb with ((((h1 | h2) | h3) | h4) | h5) | h6 <;>
      subst_vars <;> exact absurd h (by decide)

theorem dropWhile_space_of_digits {t : List Char}
    (ht : ∀ c ∈ t, c.isDigit = true) : t.dropWhile isSpaceChar = t := by
  cases t with
  | nil => simp
  | cons x xs =>
    have hx := ht x (by simp)
    simp [List.dropWhile, isDigit_not_space hx]

theorem stripList_of_all_digits {s : List Char} (h : s.all Char.isDigit = true) :
    stripList s = s := by
  rw [List.all_eq_true] at h
  unfold stripList
  rw [dropWhile_space_of_digits h,
    dropWhile_space_of_digits (fun c hc => h c (List.mem_reverse.mp hc)),
    List.reverse_reverse]

theorem pyInt_digits {s : List Char} (hne : s ≠ []) (h : s.all Char.isDigit = true) :
    pyInt s = some ((parseDec s : Int)) := by
  unfold pyInt
  rw [stripList_of_all_digits h]
  cases s with
  | nil => exact absurd rfl hne
  | cons x xs =>
    have hx : x.isDigit = true := by
      rw [List.all_eq_true] at h
      exact h x (by simp)
    have hxm : x ≠ '-' := by
      intro hc; subst hc; exact absurd hx (by decide)
    have hxp : x ≠ '+' := by
      intro hc; subst hc; exact absurd hx (by decide)
    dsimp only
    rw [if_neg hxm, if_neg hxp, if_pos h]

theorem not_mem_of_all_digits {s : List Char} (h : s.all Char.isDigit = true)
    {c : Char} (hc : c.isDigit = false) : c ∉ s := by
  intro hm
  rw [List.all_eq_true] at h
  rw [h c hm] at hc
  exact absurd hc (by simp)

/-- Evaluation of `time_to_ms` on a canonically shaped timecode whose four
fields are arbitrary nonempty digit strings. -/
theorem time_to_ms_fields (hs ms ss fs : List Char)
    (h1 : hs.all Char.isDigit = true) (e1 : hs ≠ [])
    (h2 : ms.all Char.isDigit = true) (e2 : ms ≠ [])
    (h3 : ss.all Char.isDigit = true) (e3 : ss ≠ [])
    (h4 : fs.all Char.isDigit = true) (e4 : fs ≠ []) :
    time_to_ms (hs ++ ':' :: ms ++ ':' :: ss ++ ',' :: fs) =
      some ((parseDec hs : Int) * 3600000 + (parseDec ms : Int) * 60000 +
        (parseDec ss : Int) * 1000 + (parseDec fs : Int)) := by
  have hc1 : ':' ∉ hs := not_mem_of_all_digits h1 (by decide)
  have hc2 : ':' ∉ ms := not_mem_of_all_digits h2 (by decide)
  have hc3 : ':' ∉ ss ++ ',' :: fs := by
    intro hmem
    rcases List.mem_append.mp hmem with hss | hrest
    · exact not_mem_of_all_digits h3 (by decide) hss
    · rcases List.mem_cons.mp hrest with hcm | hfs
      · exact absurd hcm (by decide)
      · exact not_mem_of_all_digits h4 (by decide) hfs
  have hm1 : ',' ∉ ss := not_mem_of_all_digits h3 (by decide)
  unfold time_to_ms
  rw [show hs ++ ':' :: ms ++ ':' :: ss ++ ',' :: fs =
      hs ++ ':' :: (ms ++ ':' :: (ss ++ ',' :: fs)) by simp]
  rw [splitOnChar_append_cons _ hc1, splitOnChar_append_cons _ hc2,
    splitOnChar_of_not_mem hc3]
  dsimp only
  rw [splitOnChar_append_cons _ hm1, splitOnChar_of_not_mem
    (not_mem_of_all_digits h4 (by decide))]
  dsimp only
  rw [pyInt_digits e1 h1, pyInt_digits e2 h2, pyInt_digits e3 h3, pyInt_digits e4 h4]

/-- Round trip of the codec on non-negative millisecond counts (shared
helper, also the heart of the C9 claim). -/
theorem time_to_ms_ms_to_time_nat (n : Nat) :
    time_to_ms (ms_to_time (n : Int)) = some ((n : Int)) := by
  have hcl : (if (n : Int) < 0 then 0 else (n : Int).toNat) = n := by
    rw [if_neg (by omega : ¬((n : Int) < 0))]
    omega
  unfold ms_to_time
  rw [hcl]
  unfold msFmt
  rw [time_to_ms_fields _ _ _ _ (pad2_all_digits _) (pad2_ne_nil _)
    (pad2_all_digits _) (pad2_ne_nil _) (pad2_all_digits _) (pad2_ne_nil _)
    (pad3_all_digits _) (pad3_ne_nil _)]
  rw [parseDec_pad2, parseDec_pad2, parseDec_pad2, parseDec_pad3]
  congr 1
  omega

/-- Total-wrapper version of the round trip, for any non-negative `Int`. -/
theorem tms_ms_to_time {v : Int} (hv : 0 ≤ v) : tms (ms_to_time v) = v := by
  have hvn : v = ((v.toNat : Nat) : Int) := by omega
  rw [hvn, tms, time_to_ms_ms_to_time_nat]
  rfl

/-- C9: the time codec is an exact inverse pair: `time_to_ms` computes
`h*3600000 + m*60000 + s*1000 + frac` with the hours field unbounded;
`ms_to_time` clamps negative input to zero before formatting; for every
non-negative integer `ms`, `time_to_ms (ms_to_time ms) = ms`, and for
every negative `ms`, `ms_to_time ms = ms_to_time 0 = "00:00:00,000"`. -/
theorem time_codec_exact_inverse :
    (∀ n : Nat, time_to_ms (ms_to_time (n : Int)) = some ((n : Int)))
    ∧ (∀ n : Nat, ms_to_time (-1 - (n : Int)) = ms_to_time 0
        ∧ ms_to_time 0 = ("00:00:00,000").toList)
    ∧ (∀ h m s f : Nat,
        time_to_ms (natToDec h ++ ':' :: natToDec m ++ ':' :: natToDec s ++ ',' :: natToDec f)
          = some ((h : Int) * 3600000 + (m : Int) * 60000 + (s : Int) * 1000 + (f : Int))) := by
  refine ⟨?_, ?_, ?_⟩
  · exact time_to_ms_ms_to_time_nat
  · intro n
    constructor
    · have h1 : (if (-1 - (n : Int)) < 0 then 0 else (-1 - (n : Int)).toNat) = 0 :=
        if_pos (by omega)
      have h2 : (if (0 : Int) < 0 then 0 else (0 : Int).toNat) = 0 := by
        rw [if_neg (by omega : ¬((0 : Int) < 0))]
        rfl
      unfold ms_to_time
      rw [h1, h2]
    · decide
  · intro h m s f
    rw [time_to_ms_fields _ _ _ _ (natToDec_all_digits _) (natToDec_ne_nil _)
      (natToDec_all_digits _) (natToDec_ne_nil _) (natToDec_all_digits _)
      (natToDec_ne_nil _) (natToDec_all_digits _) (natToDec_ne_nil _)]
    rw [parseDec_natToDec, parseDec_natToDec, parseDec_natToDec, parseDec_natToDec]

/-! Language configuration (`LANG_CONFIG`, `TIMING`, `is_cjk`). -/

/-- One row of `LANG_CONFIG`. -/
structure LangCfg where
  max_chars : Nat
  max_cps : Nat
  max_cps_kids : Nat
  name : String
deriving DecidableEq

/-- The `LANG_CONFIG` table. -/
def LANG_CONFIG (code : String) : Option LangCfg :=
  if code = "en" then some ⟨42, 17, 15, "English"⟩
  else if code = "zh" then some ⟨16, 9, 7, "Chinese"⟩
  else if code = "ja" then some ⟨13, 4, 4, "Japanese"⟩
  else if code = "ko" then some ⟨16, 12, 10, "Korean"⟩
  else if code = "es" then some ⟨42, 17, 15, "Spanish"⟩
  else none

/-- `LANG_CONFIG.get(lang, LANG_CONFIG['en'])` as used by `validate`,
`fix_entries` and `clean_entries`. -/
def configFor (lang : String) : LangCfg :=
  (LANG_CONFIG lang).getD ⟨42, 17, 15, "English"⟩

def TIMING_min_ms : Int := 833

def TIMING_max_ms : Int := 7000

def TIMING_gap_ms : Int := 83

/-- `is_cjk(lang)`. -/
def is_cjk (lang : String) : Bool :=
  lang = "zh" || lang = "ja" || lang = "ko"

/-- The characters of the `CJK_PUNCTUATION` constant.  In the source the
literal is two adjacent string literals (the apparent `''` in the middle
closes and reopens the string), so the constant consists of the full-width
punctuation below together with two ASCII double-quote characters. -/
def CJK_PUNCTUATION : List Char :=
  ['，', '。', '！', '？', '、', '；', '：', '"', '"', '）', '》', '】', '…']

/-! Text measurement (`count_chars`, `calc_cps`). -/

/-- State machine implementing `re.sub(r'<[^>]+>', '', text)`, scanning
left to right.  `pending = some buf` means a `<` has been read and `buf`
holds (reversed) the characters seen since, none of which was `>`.  A
match of the regex is a `<`, one or more non-`>` characters, then `>`;
on `<>` the regex does not match at the `<` (the middle class needs at
least one character), so both characters are kept, and an unclosed `<`
at end of input is kept literally together with its buffer. -/
def smAux : Option (List Char) → List Char → List Char → List Char
  | none, out, [] => out.reverse
  | none, out, c :: r =>
    if c = '<' then smAux (some []) out r else smAux none (c :: out) r
  | some buf, out, [] => out.reverse ++ '<' :: buf.reverse
  | some buf, out, c :: r =>
    if c = '>' then
      if buf = [] then smAux none ('>' :: '<' :: out) r else smAux none out r
    else smAux (some (c :: buf)) out r

/-- `re.sub(r'<[^>]+>', '', text)`. -/
def stripMarkup (s : List Char) : List Char := smAux none [] s

/-- `.replace('\n', ' ')`. -/
def replaceNlSp (s : List Char) : List Char :=
  s.map (fun c => if c = '\n' then ' ' else c)

/-- Width of one character under the CJK rule: `2 if ord(c) > 127 else 1`. -/
def charWidth (c : Char) : Nat := if 127 < c.toNat then 2 else 1

/-- `count_chars(text, lang)`: strip markup, replace line breaks by
spaces, strip; then sum CJK-aware widths for CJK languages, plain length
otherwise. -/
def count_chars (text : List Char) (lang : String) : Nat :=
  if is_cjk lang then ((stripList (replaceNlSp (stripMarkup text))).map charWidth).sum
  else (stripList (replaceNlSp (stripMarkup text))).length

/-- `calc_cps(text, duration_ms, lang)`: `float('inf')` (here `none`) for
non-positive durations, else `count_chars(text, lang) / (duration_ms / 1000)`. -/
def calc_cps (text : List Char) (duration_ms : Int) (lang : String) : Option ℚ :=
  if duration_ms ≤ 0 then none
  else some ((count_chars text lang : ℚ) / ((duration_ms : ℚ) / 1000))

/-- `cps > max_cps` where `cps` may be `float('inf')`: infinity exceeds
every finite threshold. -/
def cpsGt (cps : Option ℚ) (limit : Nat) : Bool :=
  match cps with
  | none => true
  | some q => decide ((limit : ℚ) < q)

/-! IEEE-754 binary64 evaluation of the reading speed.  CPython performs
`count_chars(text, lang) / (duration_ms / 1000)` in double precision:
`duration_ms / 1000` is int-by-int true division (one correctly rounded
double), the character count is converted to a double (exact below
`2 ^ 53`), and the final division is one more correctly rounded
operation.  Correct rounding of an exact rational to binary64 is
round-to-nearest with ties to the even significand, which the following
definitions implement over `ℚ` with integer arithmetic. -/

/-- Number of binary digits of `n` (fuel-driven so that the definition
is structurally recursive; fuel `n + 1` always suffices because the
argument at least halves each step). -/
def bitlenGo : Nat → Nat → Nat
  | 0, _ => 0
  | f + 1, n => if n = 0 then 0 else bitlenGo f (n / 2) + 1

/-- Number of binary digits of `n`: `bitlen 0 = 0` and
`2 ^ (bitlen n - 1) ≤ n < 2 ^ bitlen n` for positive `n`. -/
def bitlen (n : Nat) : Nat := bitlenGo (n + 1) n

/-- Whether `2 ^ c ≤ a / b`, computed in integers (`b ≠ 0`). -/
def pow2le (c : Int) (a b : Nat) : Bool :=
  if 0 ≤ c then decide (2 ^ c.toNat * b ≤ a) else decide (b ≤ 2 ^ (-c).toNat * a)

/-- The exact quotient `A / B` (`B ≠ 0`) rounded to the nearest integer,
ties to the even candidate — the rounding IEEE-754 applies to the scaled
significand. -/
def rdivNE (A B : Nat) : Nat :=
  let d := A / B
  let r := A % B
  if 2 * r < B then d
  else if B < 2 * r then d + 1
  else if d % 2 = 0 then d else d + 1

/-- Binary64 rounding of a positive rational `q = a / b`: with the
binade exponent `e` fixed by `2 ^ e ≤ q < 2 ^ (e + 1)` (the `bitlen`
difference brackets it to two candidates and `pow2le` picks one), the
scaled significand `q / 2 ^ (e - 52)` lies in `[2 ^ 52, 2 ^ 53)` and is
rounded to the nearest integer, ties to even; the result is that
integer scaled back.  The exponent is not bounded: the result agrees
with IEEE-754 binary64 exactly when it lies in the binary64 normal
finite range `[2 ^ (-1022), 2 ^ 1024)`, which in `calc_cps_fl` covers
every value below the `OverflowError` territory of magnitudes above
`1.8e308` (a character count or a duration of three hundred digits;
`parse_srt`'s two-digit timecode fields keep real durations under
`4 * 10 ^ 8` ms) and every positive quotient of such data (for a
positive count and a duration of at most `2 ^ 1000` ms the quotient
stays far above the subnormal boundary). -/
def roundB64Pos (q : ℚ) : ℚ :=
  let a := q.num.toNat
  let b := q.den
  let c : Int := (bitlen a : Int) - (bitlen b : Int)
  let e : Int := if pow2le c a b then c else c - 1
  let s : Int := 52 - e
  let A : Nat := if 0 ≤ s then a * 2 ^ s.toNat else a
  let B : Nat := if 0 ≤ s then b else b * 2 ^ (-s).toNat
  let n : Nat := rdivNE A B
  if 0 ≤ s then (n : ℚ) / ((2 ^ s.toNat : Nat) : ℚ)
  else ((n * 2 ^ (-s).toNat : Nat) : ℚ)

/-- Binary64 round-to-nearest-even of an exact rational, extended to
zero and (symmetrically, as IEEE-754 prescribes) to negative values. -/
def roundB64 (q : ℚ) : ℚ :=
  if q = 0 then 0
  else if q < 0 then -roundB64Pos (-q)
  else roundB64Pos q

/-- The reading-speed value exactly as the program computes it, in
binary64 floating point (each of the three operations correctly
rounded); `calc_cps` above is the exact real value of the same formula.
The two differ when rounding crosses a threshold: see claim C2's
theorem for the 21-character / 1400 ms cue, where the real value is
exactly 15 chars/s but the doubles give strictly more, so the program
emits a CPS issue that the exact value would not produce. -/
def calc_cps_fl (text : List Char) (duration_ms : Int) (lang : String) : Option ℚ :=
  if duration_ms ≤ 0 then none
  else some (roundB64
    (roundB64 (count_chars text lang : ℚ) / roundB64 ((duration_ms : ℚ) / 1000)))

/-- C8: `calc_cps` returns positive infinity (modelled `none`) whenever
`duration_ms <= 0`, and otherwise `W * 1000 / duration_ms` where `W` is
the display width of the text under the language's own CJK-aware rule —
the same measurement as `count_chars`, under which
`count_chars("ab","en") = 2`, `count_chars("日本語","ja") = 6` and
`count_chars("<i>hi</i>","en") = 2`. -/
theorem calc_cps_cjk_aware_width :
    (∀ (t : List Char) (l : String) (d : Int),
      calc_cps t d l =
        if d ≤ 0 then none else some ((count_chars t l : ℚ) * 1000 / (d : ℚ)))
    ∧ count_chars (("ab").toList) "en" = 2
    ∧ count_chars (("日本語").toList) "ja" = 6
    ∧ count_chars (("<i>hi</i>").toList) "en" = 2 := by
  refine ⟨?_, by decide, by decide, by decide⟩
  intro t l d
  unfold calc_cps
  split
  · rfl
  · rw [div_div_eq_mul_div]

/-! The cue data model and the validators. -/

/-- One parsed subtitle entry (the dict built by `parse_srt`). -/
structure Entry where
  index : Int
  start : List Char
  «end» : List Char
  text : List Char
deriving DecidableEq

/-- One issue string produced by `validate_entry` or by the gap pass of
`validate`, modelled structurally: each constructor records exactly the
data interpolated into the corresponding f-string message. -/
inductive Issue where
  /-- `f"Duration {duration}ms < 833ms minimum"` -/
  | durShort (duration : Int)
  /-- `f"Duration {duration}ms > 7000ms maximum"` -/
  | durLong (duration : Int)
  /-- `f"CPS {cps:.1f} > {max_cps} maximum"`; carries the binary64 CPS
  value computed by the program (`none` = infinity) whose one-decimal
  rendering appears in the message. -/
  | cpsHigh (cps : Option ℚ) (limit : Nat)
  /-- `f"Line '{line[:20]}...' has {chars} chars > {max_chars} max"`;
  carries the 20-character line head of the message. -/
  | lineLong (head20 : List Char) (chars : Nat) (limit : Nat)
  /-- `f"Has {n} lines, max is 2"` -/
  | manyLines (n : Nat)
  /-- `f"Overlaps with previous by {overlap}ms"` (`overlap = -gap`) -/
  | overlap (overlap : Int)
  /-- `f"Gap {gap}ms < 83ms minimum"` -/
  | gapShort (gap : Int)
deriving DecidableEq

/-- `validate_entry(e, lang, cfg, kids)`: the sequential issue
accumulation of the source, in source order. -/
def validate_entry (e : Entry) (lang : String) (cfg : LangCfg) (kids : Bool) : List Issue :=
  let duration := tms e.«end» - tms e.start
  let issues1 := if duration < TIMING_min_ms then [Issue.durShort duration] else []
  let issues2 := issues1 ++
    (if duration > TIMING_max_ms then [Issue.durLong duration] else [])
  let max_cps := if kids then cfg.max_cps_kids else cfg.max_cps
  let issues3 := issues2 ++
    (if cpsGt (calc_cps_fl e.text duration lang) max_cps then
      [Issue.cpsHigh (calc_cps_fl e.text duration lang) max_cps] else [])
  let issues4 := (splitNl e.text).foldl
    (fun acc line =>
      if cfg.max_chars < count_chars line lang then
        acc ++ [Issue.lineLong (line.take 20) (count_chars line lang) cfg.max_chars]
      else acc)
    issues3
  issues4 ++
    (if 2 ≤ e.text.count '\n' then [Issue.manyLines (e.text.count '\n' + 1)] else [])

/-- One violation record `(index, start, end, issues)`. -/
abbrev Violation : Type := Int × List Char × List Char × List Issue

/-- `validate(entries, lang, kids)`: first loop collects per-cue issues,
second loop (over adjacent pairs, `entries.zip entries.tail` standing for
`range(1, len(entries))`) collects gap/overlap issues, appended after. -/
def validate (entries : List Entry) (lang : String) (kids : Bool) : List Violation :=
  let cfg := configFor lang
  let all1 := entries.foldl
    (fun acc e =>
      if validate_entry e lang cfg kids ≠ [] then
        acc ++ [(e.index, e.start, e.«end», validate_entry e lang cfg kids)]
      else acc) []
  (entries.zip entries.tail).foldl
    (fun acc pc =>
      if tms pc.2.start - tms pc.1.«end» < 0 then
        acc ++ [(pc.2.index, pc.2.start, pc.2.«end»,
          [Issue.overlap (-(tms pc.2.start - tms pc.1.«end»))])]
      else if 0 < tms pc.2.start - tms pc.1.«end» ∧
          tms pc.2.start - tms pc.1.«end» < TIMING_gap_ms then
        acc ++ [(pc.2.index, pc.2.start, pc.2.«end»,
          [Issue.gapShort (tms pc.2.start - tms pc.1.«end»)])]
      else acc) all1

/-! Generic bridge from append-accumulating folds to concatenation maps. -/

/-- Concatenation of the images of `h` (the shape of an imperative loop
that appends a few items per element). -/
def catMap {α β : Type} (h : α → List β) : List α → List β
  | [] => []
  | x :: xs => h x ++ catMap h xs

theorem foldl_append_step {α β : Type} (step : List β → α → List β)
    (h : α → List β) (hstep : ∀ acc x, step acc x = acc ++ h x) :
    ∀ (l : List α) (init : List β), l.foldl step init = init ++ catMap h l := by
  intro l
  induction l with
  | nil => intro init; simp [catMap]
  | cons x xs ih =>
    intro init
    rw [List.foldl_cons, hstep, ih, catMap, List.append_assoc]

theorem splitOnChar_length (c : Char) (s : List Char) :
    (splitOnChar c s).length = s.count c + 1 := by
  induction s with
  | nil => simp [splitOnChar]
  | cons x xs ih =>
    simp only [splitOnChar]
    by_cases hx : x = c
    · rw [if_pos hx]
      simp [List.count_cons, hx, ih]
    · rw [if_neg hx]
      rcases hs : splitOnChar c xs with _ | ⟨h1, t⟩
      · exact absurd hs (splitOnChar_ne_nil c xs)
      · rw [hs] at ih
        simp only [consHead, List.length_cons, List.count_cons]
        simp only [List.length_cons] at ih
        simp [hx, ih]

theorem splitNl_length (s : List Char) : (splitNl s).length = s.count '\n' + 1 :=
  splitOnChar_length '\n' s

/-! Concrete binary64 evaluations at the 21-character / 1400 ms
threshold tie.  The kernel computations are staged — the character
count is evaluated first and rewritten into place — so that no single
reduction nests the text pipeline inside the rational arithmetic. -/

theorem cps_tie_count :
    count_chars (("twenty one characters").toList) "en" = 21 := by decide

set_option maxRecDepth 2000 in
theorem cps_tie_fl_flagged :
    cpsGt (calc_cps_fl (("twenty one characters").toList) 1400 "en") 15 = true := by
  unfold calc_cps_fl
  rw [cps_tie_count]
  with_unfolding_all decide

set_option maxRecDepth 2000 in
theorem cps_tie_exact_value :
    calc_cps (("twenty one characters").toList) 1400 "en" = some 15 := by
  unfold calc_cps
  rw [cps_tie_count]
  with_unfolding_all decide

theorem cps_tie_exact_not_flagged : cpsGt (some (15 : ℚ)) 15 = false := by
  with_unfolding_all decide

/-- C2: `validate_entry` returns all applicable issues, not just the
first, in the fixed order: duration-too-short (< 833 ms), then
duration-too-long (> 7000 ms), then reading-speed (the CPS value the
program computes in binary64 floating point strictly above the kids
threshold when kids mode is set, else the adult threshold, that value
carried in the issue), then one line-too-long issue per line whose
display width strictly exceeds the configured max chars (the issue
carrying the 20-character head of that line), then too-many-lines
exactly when the cue has 3 or more lines.  The second component pins
the floating-point semantics of the reading-speed comparison down at a
threshold tie: a 21-character English cue lasting 1400 ms reads at
exactly 15 chars/s (the exact `calc_cps` value is `15`, which does not
strictly exceed the kids threshold 15), yet the binary64 evaluation —
`21 / fl(1.4)` with `fl(1.4) = 6305039478318694 / 2 ^ 52` rounds to
`8444249301319681 / 2 ^ 49`, the double printed `15.000000000000002` —
does exceed it, so in kids mode the program emits the CPS issue where
the exact real value would not produce one. -/
theorem validate_entry_all_issues_in_order :
    (∀ (e : Entry) (lang : String) (cfg : LangCfg) (kids : Bool),
      validate_entry e lang cfg kids =
        (if tms e.«end» - tms e.start < 833 then
          [Issue.durShort (tms e.«end» - tms e.start)] else [])
        ++ (if 7000 < tms e.«end» - tms e.start then
          [Issue.durLong (tms e.«end» - tms e.start)] else [])
        ++ (if cpsGt (calc_cps_fl e.text (tms e.«end» - tms e.start) lang)
              (if kids then cfg.max_cps_kids else cfg.max_cps) then
          [Issue.cpsHigh (calc_cps_fl e.text (tms e.«end» - tms e.start) lang)
            (if kids then cfg.max_cps_kids else cfg.max_cps)] else [])
        ++ catMap (fun line =>
            if cfg.max_chars < count_chars line lang then
              [Issue.lineLong (line.take 20) (count_chars line lang) cfg.max_chars]
            else []) (splitNl e.text)
        ++ (if 3 ≤ (splitNl e.text).length then
          [Issue.manyLines ((splitNl e.text).length)] else []))
    ∧ (count_chars (("twenty one characters").toList) "en" = 21
      ∧ cpsGt (calc_cps_fl (("twenty one characters").toList) 1400 "en") 15 = true
      ∧ calc_cps (("twenty one characters").toList) 1400 "en" = some 15
      ∧ cpsGt (some (15 : ℚ)) 15 = false) := by
  refine ⟨?_, cps_tie_count, cps_tie_fl_flagged,
    cps_tie_exact_value, cps_tie_exact_not_flagged⟩
  intro e lang cfg kids
  simp only [validate_entry]
  rw [foldl_append_step _
    (fun line =>
      if cfg.max_chars < count_chars line lang then
        [Issue.lineLong (line.take 20) (count_chars line lang) cfg.max_chars]
      else [])
    (fun acc line => by
      by_cases hc : cfg.max_chars < count_chars line lang <;> simp [hc])]
  simp only [TIMING_min_ms, TIMING_max_ms, gt_iff_lt, List.append_assoc]
  rw [splitNl_length]
  simp only [show (3 ≤ e.text.count '\n' + 1) ↔ (2 ≤ e.text.count '\n') from by omega]

/-- C3: `validate` is two concatenated passes: the per-cue pass in
sequence order (each non-empty `validate_entry` result becoming one
violation), then the adjacent-pair pass in file order, which emits an
overlap violation on the later cue with magnitude `-gap` when `gap < 0`,
a gap-too-short violation on the later cue when `0 < gap < 83`, and
nothing otherwise (in particular nothing when the gap is exactly zero);
every gap-pass violation comes after every cue-level violation. -/
theorem validate_two_concatenated_passes :
    ∀ (es : List Entry) (lang : String) (kids : Bool),
      validate es lang kids =
        catMap (fun e =>
          if validate_entry e lang (configFor lang) kids ≠ [] then
            [(e.index, e.start, e.«end», validate_entry e lang (configFor lang) kids)]
          else []) es
        ++ catMap (fun pc =>
          if tms pc.2.start - tms pc.1.«end» < 0 then
            [(pc.2.index, pc.2.start, pc.2.«end»,
              [Issue.overlap (-(tms pc.2.start - tms pc.1.«end»))])]
          else if 0 < tms pc.2.start - tms pc.1.«end» ∧
              tms pc.2.start - tms pc.1.«end» < 83 then
            [(pc.2.index, pc.2.start, pc.2.«end»,
              [Issue.gapShort (tms pc.2.start - tms pc.1.«end»)])]
          else []) (es.zip es.tail) := by
  intro es lang kids
  simp only [validate]
  rw [foldl_append_step _
    (fun e =>
      if validate_entry e lang (configFor lang) kids ≠ [] then
        [(e.index, e.start, e.«end», validate_entry e lang (configFor lang) kids)]
      else [])
    (fun acc e => by
      by_cases hc : validate_entry e lang (configFor lang) kids ≠ [] <;> simp [hc])]
  rw [foldl_append_step _
    (fun pc =>
      if tms pc.2.start - tms pc.1.«end» < 0 then
        [(pc.2.index, pc.2.start, pc.2.«end»,
          [Issue.overlap (-(tms pc.2.start - tms pc.1.«end»))])]
      else if 0 < tms pc.2.start - tms pc.1.«end» ∧
          tms pc.2.start - tms pc.1.«end» < TIMING_gap_ms then
        [(pc.2.index, pc.2.start, pc.2.«end»,
          [Issue.gapShort (tms pc.2.start - tms pc.1.«end»)])]
      else [])
    (fun acc pc => by
      dsimp only
      by_cases h1 : tms pc.2.start - tms pc.1.«end» < 0
      · rw [if_pos h1, if_pos h1]
      · rw [if_neg h1, if_neg h1]
        by_cases h2 : 0 < tms pc.2.start - tms pc.1.«end» ∧
            tms pc.2.start - tms pc.1.«end» < TIMING_gap_ms
        · rw [if_pos h2, if_pos h2]
        · rw [if_neg h2, if_neg h2, List.append_nil])]
  simp only [TIMING_gap_ms, List.nil_append]

/-! Line-break repair (`fix_line_breaks`). -/

/-- Python `str.split()` with no argument: split on runs of whitespace,
discarding empty pieces. -/
def splitWs : List Char → List (List Char)
  | [] => []
  | c :: rest =>
    if isSpaceChar c then splitWs rest
    else
      match rest, splitWs rest with
      | [], _ => [[c]]
      | r0 :: _, ws =>
        if isSpaceChar r0 then [c] :: ws
        else
          match ws with
          | [] => [[c]]
          | w :: t => (c :: w) :: t

/-- `' '.join(words)`. -/
def joinSp (ws : List (List Char)) : List Char := joinWith [' '] ws

/-- Condition of the CJK break-point scan in `fix_line_breaks`: the
character at (0-based) position `ic.1` is CJK punctuation, the position
is strictly positive, and the prefix through it fits within `mc`. -/
def bbCond (line : List Char) (lang : String) (mc : Nat) (ic : Nat × Char) : Prop :=
  ic.2 ∈ CJK_PUNCTUATION ∧ 0 < ic.1 ∧ count_chars (line.take (ic.1 + 1)) lang ≤ mc

instance bbCondDec (line : List Char) (lang : String) (mc : Nat) :
    DecidablePred (bbCond line lang mc) := fun ic => by
  unfold bbCond
  infer_instance

/-- The `best_break` scan of `fix_line_breaks`: left-to-right loop keeping
the last position that satisfies `bbCond`, i.e. `best_break = i + 1` for
the rightmost such `i`.  The source initialises `best_break = -1` and
later tests `best_break > 0`; since every recorded value `i + 1` with
`i > 0` is at least 2, that test is exactly "some value was recorded",
which `Option` models. -/
def bestBreak (line : List Char) (lang : String) (mc : Nat) : Option Nat :=
  line.enum.foldl
    (fun best ic => if bbCond line lang mc ic then some (ic.1 + 1) else best)
    none

/-- `fix_line_breaks(text, lang, max_chars)`: per line, keep it if it
fits; otherwise split it (CJK: after the best punctuation position,
stripping the remainder, falling back to the character midpoint;
other languages: at the word-count midpoint); finally keep only the
first two result lines. -/
def fix_line_breaks (text : List Char) (lang : String) (max_chars : Nat) : List Char :=
  let lines := splitNl text
  let result := lines.foldl
    (fun acc line =>
      if count_chars line lang ≤ max_chars then acc ++ [line]
      else if is_cjk lang then
        match bestBreak line lang max_chars with
        | some b => acc ++ [line.take b, stripList (line.drop b)]
        | none => acc ++ [line.take (line.length / 2), line.drop (line.length / 2)]
      else
        acc ++ [joinSp ((splitWs line).take ((splitWs line).length / 2)),
                joinSp ((splitWs line).drop ((splitWs line).length / 2))]) []
  joinNl (result.take 2)

/-- A left fold that keeps the last element satisfying `p` finds the
first satisfying element of the reversed list. -/
theorem foldl_keep_last {α β : Type} (p : α → Prop) [DecidablePred p] (f : α → β) :
    ∀ (l : List α) (init : Option β),
      l.foldl (fun best x => if p x then some (f x) else best) init
        = match l.reverse.find? (fun x => decide (p x)) with
          | some y => some (f y)
          | none => init := by
  intro l
  induction l with
  | nil => intro init; simp
  | cons x xs ih =>
    intro init
    rw [List.foldl_cons, ih]
    rw [List.reverse_cons, List.find?_append]
    rcases h : xs.reverse.find? (fun x => decide (p x)) with _ | y
    · by_cases hp : p x <;> simp [List.find?, hp, Option.orElse]
    · simp [Option.orElse]

/-- C4: `fix_line_breaks` keeps every line whose display width is within
`max_chars`; an over-long line is split — in a CJK language after the
rightmost punctuation position (index > 0) whose left segment still fits
(the remainder stripped), falling back to the character midpoint when no
such position exists; in a non-CJK language at the word-count midpoint of
the whitespace-delimited words, each half rejoined with spaces.  The
accumulated result is then truncated to its first two lines with no
re-check or recursive re-split, so the 49-character English example line
against `max_chars = 42` yields exactly the two word-midpoint halves. -/
theorem fix_line_breaks_single_pass_truncate :
    (∀ (text : List Char) (lang : String) (max_chars : Nat),
      fix_line_breaks text lang max_chars =
        joinNl ((catMap (fun line =>
          if count_chars line lang ≤ max_chars then [line]
          else if is_cjk lang then
            match bestBreak line lang max_chars with
            | some b => [line.take b, stripList (line.drop b)]
            | none => [line.take (line.length / 2), line.drop (line.length / 2)]
          else
            [joinSp ((splitWs line).take ((splitWs line).length / 2)),
             joinSp ((splitWs line).drop ((splitWs line).length / 2))])
          (splitNl text)).take 2))
    ∧ (∀ (line : List Char) (lang : String) (mc : Nat),
        bestBreak line lang mc =
          (line.enum.reverse.find? (fun ic => decide (bbCond line lang mc ic))).map
            (fun ic => ic.1 + 1))
    ∧ fix_line_breaks (("this is a very long line of forty five characters").toList) "en" 42
        = ("this is a very long\nline of forty five characters").toList := by
  refine ⟨?_, ?_, by decide⟩
  · intro text lang max_chars
    simp only [fix_line_breaks]
    rw [foldl_append_step _
      (fun line =>
        if count_chars line lang ≤ max_chars then [line]
        else if is_cjk lang then
          match bestBreak line lang max_chars with
          | some b => [line.take b, stripList (line.drop b)]
          | none => [line.take (line.length / 2), line.drop (line.length / 2)]
        else
          [joinSp ((splitWs line).take ((splitWs line).length / 2)),
           joinSp ((splitWs line).drop ((splitWs line).length / 2))])
      (fun acc line => by
        dsimp only
        by_cases h1 : count_chars line lang ≤ max_chars
        · rw [if_pos h1, if_pos h1]
        · rw [if_neg h1, if_neg h1]
          by_cases h2 : is_cjk lang = true
          · rw [if_pos h2, if_pos h2]
            rcases hb : bestBreak line lang max_chars with _ | b <;> simp
          · rw [if_neg h2, if_neg h2])]
    simp
  · intro line lang mc
    unfold bestBreak
    rw [foldl_keep_last (bbCond line lang mc) (fun ic => ic.1 + 1)]
    rcases h : line.enum.reverse.find? (fun ic => decide (bbCond line lang mc ic)) with _ | y
    · simp
    · simp

/-- C10: for a non-CJK language, a text consisting of one single
whitespace-delimited word whose display width exceeds `max_chars` is
split at word-count midpoint 0, producing an empty first line followed by
the word: the result begins with a line break. -/
theorem fix_line_breaks_single_word_empty_first_line :
    ∀ (line w : List Char) (lang : String) (max_chars : Nat),
      is_cjk lang = false →
      '\n' ∉ line →
      splitWs line = [w] →
      max_chars < count_chars line lang →
      fix_line_breaks line lang max_chars = '\n' :: w := by
  intro line w lang max_chars hcjk hnl hws hlong
  simp only [fix_line_breaks]
  rw [show splitNl line = [line] from splitOnChar_of_not_mem hnl]
  rw [List.foldl_cons, List.foldl_nil]
  rw [if_neg (Nat.not_le.mpr hlong), if_neg (by simp [hcjk])]
  rw [hws]
  simp [joinSp, joinNl, joinWith]

/-- Witness for the C10 theorem at a concrete single-word line. -/
theorem fix_line_breaks_single_word_empty_first_line_witness :
    fix_line_breaks (("superlongword").toList) "en" 5 = '\n' :: ("superlongword").toList :=
  fix_line_breaks_single_word_empty_first_line _ _ _ _ (by decide) (by decide)
    (by decide) (by decide)

/-! Timing and gap repair (`fix_timing`, `fix_gaps`, `fix_entries`). -/

/-- `fix_timing(e)`: extend a too-short cue's end to `start + 833` ms
(the default `min_ms`, the only value the program uses). -/
def fix_timing (e : Entry) : Entry :=
  if tms e.«end» - tms e.start < TIMING_min_ms then
    { e with «end» := ms_to_time (tms e.start + TIMING_min_ms) }
  else e

/-- One iteration of the `fix_gaps` loop on the adjacent pair
`(prev, curr)`, returning the possibly-shortened `prev`. -/
def fixGapStep (prev curr : Entry) : Entry :=
  if tms curr.start - tms prev.«end» < 0 then
    (if tms curr.start - TIMING_gap_ms > tms prev.start + TIMING_min_ms then
      { prev with «end» := ms_to_time (tms curr.start - TIMING_gap_ms) }
    else prev)
  else if 0 < tms curr.start - tms prev.«end» ∧
      tms curr.start - tms prev.«end» < TIMING_gap_ms then
    (if tms prev.«end» - (TIMING_gap_ms - (tms curr.start - tms prev.«end»)) >
        tms prev.start + TIMING_min_ms then
      { prev with «end» :=
        ms_to_time (tms prev.«end» - (TIMING_gap_ms - (tms curr.start - tms prev.«end»))) }
    else prev)
  else prev

/-- `fix_gaps(entries)`: the source loops `i` over `range(1, len(entries))`
mutating `entries[i-1]` in place.  Iteration `i` writes only
`entries[i-1].end` and reads `entries[i-1]` (written by no earlier
iteration, since iteration `j < i` writes entry `j-1 < i-1`) and
`entries[i].start` (no iteration writes any `start`).  Hence every
iteration sees the original values of everything it reads, and the loop
equals this per-pair map in which the last entry is returned unchanged. -/
def fix_gaps : List Entry → List Entry
  | [] => []
  | [e] => [e]
  | e1 :: e2 :: rest => fixGapStep e1 e2 :: fix_gaps (e2 :: rest)

/-- The per-entry body of the `fix_entries` loop: `fix_timing` on a copy,
then `fix_line_breaks` on its text. -/
def fixOne (lang : String) (cfg : LangCfg) (e : Entry) : Entry :=
  { fix_timing e with
    text := fix_line_breaks (fix_timing e).text lang cfg.max_chars }

/-- `fix_entries(entries, lang)`. -/
def fix_entries (entries : List Entry) (lang : String) : List Entry :=
  fix_gaps (entries.map (fixOne lang (configFor lang)))

/-- C1 counterexample: an adjacent pair with original positive
sub-minimum gap 40 ms whose candidate new end would leave the earlier cue
*exactly* 833 ms long.  The claim's floor guard ("at least 833 ms")
admits the change (833 ≥ 833) and hence predicts the new end
`00:00:00,833` and a new gap of exactly 83 ms; the code's guard is
strict (`new_end > start + 833`), so `fix_gaps` leaves the pair
completely unchanged and the gap stays 40 ms. -/
theorem fix_gaps_claim_counterexample :
    fix_gaps
      [⟨1, ("00:00:00,000").toList, ("00:00:00,876").toList, ("a").toList⟩,
       ⟨2, ("00:00:00,916").toList, ("00:00:02,000").toList, ("b").toList⟩]
    = [⟨1, ("00:00:00,000").toList, ("00:00:00,876").toList, ("a").toList⟩,
       ⟨2, ("00:00:00,916").toList, ("00:00:02,000").toList, ("b").toList⟩]
    ∧ tms (("00:00:00,916").toList) - tms (("00:00:00,876").toList) = 40
    ∧ ((0 : Int) < 40 ∧ (40 : Int) < 83)
    ∧ (tms (("00:00:00,876").toList) - (83 - 40)) - tms (("00:00:00,000").toList) = 833
    ∧ (833 : Int) ≥ 833
    ∧ ms_to_time (tms (("00:00:00,876").toList) - (83 - 40)) = ("00:00:00,833").toList
    ∧ ("00:00:00,833").toList ≠ ("00:00:00,876").toList := by
  decide

/-- C1 (amended): `fix_gaps` performs a single left-to-right pass over
adjacent pairs; for an overlap it sets the earlier cue's end to
`start(later) - 83`, and for a gap strictly between 0 and 83 it shortens
the earlier cue's end by exactly `83 - gap`; in either case the change is
applied only if the new end leaves the earlier cue *strictly more* than
833 ms long relative to its own start, otherwise the pair is left
completely unchanged.  Consequently, for an originally positive
sub-minimum gap whose fix passes the strict floor guard the new gap is
exactly 83 ms, and for `end(prev) = 00:00:05,000`,
`start(next) = 00:00:05,040` with `prev` long enough, the pass sets
`end(prev)` to `00:00:04,957`. -/
theorem fix_gaps_single_pass_strict_guard :
    (∀ (p c : Entry) (rest : List Entry), fix_gaps (p :: c :: rest) =
      (if tms c.start - tms p.«end» < 0 then
        (if tms p.start + 833 < tms c.start - 83 then
          { p with «end» := ms_to_time (tms c.start - 83) } else p)
      else if 0 < tms c.start - tms p.«end» ∧ tms c.start - tms p.«end» < 83 then
        (if tms p.start + 833 < tms p.«end» - (83 - (tms c.start - tms p.«end»)) then
          { p with «end» := ms_to_time (tms p.«end» - (83 - (tms c.start - tms p.«end»))) }
        else p)
      else p) :: fix_gaps (c :: rest))
    ∧ (∀ e : Entry, fix_gaps [e] = [e])
    ∧ fix_gaps [] = []
    ∧ (∀ (p c : Entry) (rest : List Entry),
        0 ≤ tms p.start →
        0 < tms c.start - tms p.«end» →
        tms c.start - tms p.«end» < 83 →
        tms p.start + 833 < tms p.«end» - (83 - (tms c.start - tms p.«end»)) →
        tms c.start - tms ((fix_gaps (p :: c :: rest)).headD p).«end» = 83)
    ∧ fix_gaps
        [⟨1, ("00:00:00,000").toList, ("00:00:05,000").toList, ("a").toList⟩,
         ⟨2, ("00:00:05,040").toList, ("00:00:06,000").toList, ("b").toList⟩]
      = [⟨1, ("00:00:00,000").toList, ("00:00:04,957").toList, ("a").toList⟩,
         ⟨2, ("00:00:05,040").toList, ("00:00:06,000").toList, ("b").toList⟩] := by
  have hstep : ∀ p c : Entry, fixGapStep p c =
      (if tms c.start - tms p.«end» < 0 then
        (if tms p.start + 833 < tms c.start - 83 then
          { p with «end» := ms_to_time (tms c.start - 83) } else p)
      else if 0 < tms c.start - tms p.«end» ∧ tms c.start - tms p.«end» < 83 then
        (if tms p.start + 833 < tms p.«end» - (83 - (tms c.start - tms p.«end»)) then
          { p with «end» := ms_to_time (tms p.«end» - (83 - (tms c.start - tms p.«end»))) }
        else p)
      else p) := by
    intro p c
    simp only [fixGapStep, TIMING_min_ms, TIMING_gap_ms, gt_iff_lt]
  refine ⟨?_, fun e => rfl, rfl, ?_, by decide⟩
  · intro p c rest
    rw [show fix_gaps (p :: c :: rest) = fixGapStep p c :: fix_gaps (c :: rest) from rfl]
    rw [hstep]
  · intro p c rest h0 h1 h2 h3
    rw [show fix_gaps (p :: c :: rest) = fixGapStep p c :: fix_gaps (c :: rest) from rfl]
    rw [hstep]
    rw [if_neg (by omega), if_pos ⟨h1, h2⟩, if_pos h3]
    simp only [List.headD_cons]
    rw [tms_ms_to_time (by omega)]
    omega

/-- Witness for the amended C1 theorem: at the concrete 40 ms-gap pair of
the scenario, the repaired gap is exactly 83 ms. -/
theorem fix_gaps_single_pass_strict_guard_witness :
    tms (("00:00:05,040").toList) -
      tms ((fix_gaps
        [⟨1, ("00:00:00,000").toList, ("00:00:05,000").toList, ("a").toList⟩,
         ⟨2, ("00:00:05,040").toList, ("00:00:06,000").toList, ("b").toList⟩]).headD
          ⟨1, ("00:00:00,000").toList, ("00:00:05,000").toList, ("a").toList⟩).«end» = 83 :=
  fix_gaps_single_pass_strict_guard.2.2.2.1
    ⟨1, ("00:00:00,000").toList, ("00:00:05,000").toList, ("a").toList⟩
    ⟨2, ("00:00:05,040").toList, ("00:00:06,000").toList, ("b").toList⟩
    [] (by decide) (by decide) (by decide) (by decide)

/-! C5: idempotence of repair on already-compliant sequences. -/

theorem catMap_id_of {α : Type} (h : α → List α) (l : List α)
    (hx : ∀ x ∈ l, h x = [x]) : catMap h l = l := by
  induction l with
  | nil => rfl
  | cons a t ih =>
    rw [catMap, hx a (by simp), ih (fun x hm => hx x (by simp [hm]))]
    rfl

/-- `fix_line_breaks` leaves a text unchanged when every line fits and
there are at most two lines. -/
theorem fix_line_breaks_id {text : List Char} {lang : String} {mc : Nat}
    (hl : ∀ line ∈ splitNl text, count_chars line lang ≤ mc)
    (h2 : (splitNl text).length ≤ 2) :
    fix_line_breaks text lang mc = text := by
  simp only [fix_line_breaks]
  rw [foldl_append_step _
    (fun line =>
      if count_chars line lang ≤ mc then [line]
      else if is_cjk lang then
        match bestBreak line lang mc with
        | some b => [line.take b, stripList (line.drop b)]
        | none => [line.take (line.length / 2), line.drop (line.length / 2)]
      else
        [joinSp ((splitWs line).take ((splitWs line).length / 2)),
         joinSp ((splitWs line).drop ((splitWs line).length / 2))])
    (fun acc line => by
      dsimp only
      by_cases h1 : count_chars line lang ≤ mc
      · rw [if_pos h1, if_pos h1]
      · rw [if_neg h1, if_neg h1]
        by_cases hcjk : is_cjk lang = true
        · rw [if_pos hcjk, if_pos hcjk]
          rcases hb : bestBreak line lang mc with _ | b <;> simp
        · rw [if_neg hcjk, if_neg hcjk])]
  rw [List.nil_append,
    catMap_id_of _ _ (fun line hm => by rw [if_pos (hl line hm)]),
    List.take_of_length_le h2]
  exact joinNl_splitNl text

/-- `fix_gaps` leaves a sequence unchanged when every adjacent gap is
exactly zero or at least 83 ms. -/
theorem fix_gaps_id {es : List Entry}
    (hg : ∀ pc ∈ es.zip es.tail,
      tms pc.2.start - tms pc.1.«end» = 0 ∨ 83 ≤ tms pc.2.start - tms pc.1.«end») :
    fix_gaps es = es := by
  induction es with
  | nil => rfl
  | cons e1 t ih =>
    cases t with
    | nil => rfl
    | cons e2 rest =>
      rw [show fix_gaps (e1 :: e2 :: rest) = fixGapStep e1 e2 :: fix_gaps (e2 :: rest)
        from rfl]
      have h12 := hg (e1, e2) (by simp)
      have hstep : fixGapStep e1 e2 = e1 := by
        unfold fixGapStep
        simp only [TIMING_min_ms, TIMING_gap_ms, gt_iff_lt] at *
        rw [if_neg (by omega), if_neg (by omega)]
      rw [hstep, ih (fun pc hm => hg pc (by
        simp only [List.tail_cons, List.zip_cons_cons, List.mem_cons]
        right
        simpa using hm))]

/-- C5: for a cue sequence in which every cue already passes the per-cue
checks (duration within 833–7000 ms, every line's display width within
the language's max chars, at most 2 lines) and every adjacent gap is
exactly zero or at least 83 ms, `fix_entries` returns the input
unchanged (all start times, end times and text lines equal). -/
theorem fix_entries_idempotent_on_compliant :
    ∀ (es : List Entry) (lang : String),
      (∀ e ∈ es,
        833 ≤ tms e.«end» - tms e.start ∧
        tms e.«end» - tms e.start ≤ 7000 ∧
        (∀ line ∈ splitNl e.text, count_chars line lang ≤ (configFor lang).max_chars) ∧
        (splitNl e.text).length ≤ 2) →
      (∀ pc ∈ es.zip es.tail,
        tms pc.2.start - tms pc.1.«end» = 0 ∨ 83 ≤ tms pc.2.start - tms pc.1.«end») →
      fix_entries es lang = es := by
  intro es lang hcue hgap
  unfold fix_entries
  have hone : ∀ e ∈ es, fixOne lang (configFor lang) e = e := by
    intro e he
    obtain ⟨hd1, hd2, hlines, hcount⟩ := hcue e he
    have htime : fix_timing e = e := by
      unfold fix_timing
      rw [if_neg (by simp only [TIMING_min_ms]; omega)]
    unfold fixOne
    rw [htime, fix_line_breaks_id hlines hcount]
  have hmap : es.map (fixOne lang (configFor lang)) = es := by
    calc es.map (fixOne lang (configFor lang)) = es.map id :=
        List.map_congr_left hone
      _ = es := List.map_id es
  rw [hmap, fix_gaps_id hgap]

/-- Witness for C5 at a concrete compliant two-cue sequence. -/
theorem fix_entries_idempotent_on_compliant_witness :
    fix_entries
      [⟨1, ("00:00:00,000").toList, ("00:00:01,000").toList, ("hi").toList⟩,
       ⟨2, ("00:00:01,083").toList, ("00:00:02,083").toList, ("yo").toList⟩] "en"
    = [⟨1, ("00:00:00,000").toList, ("00:00:01,000").toList, ("hi").toList⟩,
       ⟨2, ("00:00:01,083").toList, ("00:00:02,083").toList, ("yo").toList⟩] :=
  fix_entries_idempotent_on_compliant _ "en" (by decide) (by decide)

/-! Parsing and serialization (`parse_srt`, `write_srt`). -/

/-- State machine implementing `re.split(r'\n\n+', s)`: the input is cut
at every maximal run of two or more newlines (single newlines stay inside
the current piece); a leading or trailing separator run produces an empty
piece, exactly as `re.split` does.  `blocksRev` holds the finished pieces
(reversed), `curRev` the current piece (reversed), and `nls` the length
of the newline run currently being read. -/
def sbAux : List (List Char) → List Char → Nat → List Char → List (List Char)
  | blocksRev, curRev, nls, [] =>
    (if 2 ≤ nls then ([] : List Char) :: curRev.reverse :: blocksRev
     else (curRev.reverse ++ List.replicate nls '\n') :: blocksRev).reverse
  | blocksRev, curRev, nls, c :: r =>
    if c = '\n' then sbAux blocksRev curRev (nls + 1) r
    else if 2 ≤ nls then sbAux (curRev.reverse :: blocksRev) [c] 0 r
    else sbAux blocksRev (c :: (List.replicate nls '\n' ++ curRev)) 0 r

/-- `re.split(r'\n\n+', s)`. -/
def splitBlocks (s : List Char) : List (List Char) := sbAux [] [] 0 s

/-- Exact shape of one timecode group `\d{2}:\d{2}:\d{2},\d{3}`.
(Python's `\d` also matches non-ASCII decimal digits; those never occur
in this program's data and are not modelled.) -/
def isTimecode (s : List Char) : Bool :=
  match s with
  | [a, b, c1, d, e, c2, f, g, cm, h, i, j] =>
    a.isDigit && b.isDigit && (c1 = ':') && d.isDigit && e.isDigit && (c2 = ':') &&
      f.isDigit && g.isDigit && (cm = ',') && h.isDigit && i.isDigit && j.isDigit
  | _ => false

/-- Consume one `\d{2}:\d{2}:\d{2},\d{3}` group from the front of `s`,
returning the matched group and the remainder. -/
def takeTimecode : List Char → Option (List Char × List Char)
  | a :: b :: c1 :: d :: e :: c2 :: f :: g :: cm :: h :: i :: j :: rest =>
    if a.isDigit && b.isDigit && (c1 = ':') && d.isDigit && e.isDigit && (c2 = ':') &&
        f.isDigit && g.isDigit && (cm = ',') && h.isDigit && i.isDigit && j.isDigit then
      some ([a, b, c1, d, e, c2, f, g, cm, h, i, j], rest)
    else none
  | _ => none

/-- Consume the literal `-->` from the front of `s`. -/
def takeArrow : List Char → Option (List Char)
  | a :: b :: c :: r => if a = '-' ∧ b = '-' ∧ c = '>' then some r else none
  | _ => none

/-- `re.match(r'(\d{2}:\d{2}:\d{2},\d{3})\s*-->\s*(\d{2}:\d{2}:\d{2},\d{3})', line)`:
anchored prefix match (trailing content ignored), returning the two
groups. -/
def matchTimecodePair (s : List Char) : Option (List Char × List Char) :=
  match takeTimecode s with
  | none => none
  | some (g1, r1) =>
    match takeArrow (r1.dropWhile isSpaceChar) with
    | none => none
    | some r2 =>
      match takeTimecode (r2.dropWhile isSpaceChar) with
      | none => none
      | some (g2, _) => some (g1, g2)

/-- Outcome of processing one block inside `parse_srt`'s loop. -/
inductive BlockRes where
  | err
  | skip
  | ok (e : Entry)

/-- One iteration of the `parse_srt` loop: skip the block if it has fewer
than 3 lines or its second line does not match the timecode pattern;
otherwise build the entry — where `int(lines[0])` can raise (`err`). -/
def parseBlock (b : List Char) : BlockRes :=
  match splitNl (stripList b) with
  | l0 :: l1 :: l2 :: rest =>
    match matchTimecodePair l1 with
    | none => BlockRes.skip
    | some (g1, g2) =>
      match pyInt l0 with
      | none => BlockRes.err
      | some v => BlockRes.ok ⟨v, g1, g2, joinNl (l2 :: rest)⟩
  | _ => BlockRes.skip

/-- The block loop of `parse_srt`; `none` models the uncaught exception
aborting the whole parse. -/
def parseBlocksGo : List (List Char) → Option (List Entry)
  | [] => some []
  | b :: bs =>
    match parseBlock b with
    | BlockRes.err => none
    | BlockRes.skip => parseBlocksGo bs
    | BlockRes.ok e => (parseBlocksGo bs).map (e :: ·)

/-- `parse_srt` applied to already-read file content (the file/stdin read
is boundary I/O outside the model). -/
def parse_srt (content : List Char) : Option (List Entry) :=
  parseBlocksGo (splitBlocks (stripList content))

/-- The lines contributed to `write_srt`'s `lines` list by one entry with
index line `idx`: `[str(i), f"{start} --> {end}", text, '']`. -/
def entryLines (idx : List Char) (e : Entry) : List (List Char) :=
  [idx, e.start ++ (" --> ").toList ++ e.«end», e.text, []]

/-- Serialization with explicit index lines (the general shape of an SRT
text; `write_srt` instantiates it with canonical indices). -/
def srtAll (idxs : List (List Char)) (es : List Entry) : List Char :=
  joinNl (catMap (fun pe => entryLines pe.1 pe.2) (idxs.zip es))

/-- The canonical index lines `str(1) .. str(n)` of `enumerate(entries, 1)`. -/
def canonIdxs (n : Nat) : List (List Char) :=
  (List.range n).map (fun i => natToDec (i + 1))

/-- `write_srt(entries)` as the produced text (writing to the file or
stdout is boundary I/O outside the model). -/
def write_srt (es : List Entry) : List Char :=
  srtAll (canonIdxs es.length) es

/-- C6 (code bug evidence): a block whose second line matches the
timecode pattern but whose first line is not an integer literal makes
`int(lines[0])` raise and aborts the whole parse (first conjunct), even
though blocks with fewer than 3 lines (second conjunct) and blocks whose
second line fails the pattern (third conjunct) are silently skipped as
the claim states. -/
theorem parse_srt_aborts_on_nonint_index :
    parse_srt (("x\n00:00:01,000 --> 00:00:02,000\nhi").toList) = none
    ∧ parse_srt (("short\n\n1\n00:00:01,000 --> 00:00:02,000\nok").toList)
      = some [⟨1, ("00:00:01,000").toList, ("00:00:02,000").toList, ("ok").toList⟩]
    ∧ parse_srt (("1\nnot a timecode\nhello\n\n2\n00:00:01,000 --> 00:00:02,000\nok").toList)
      = some [⟨2, ("00:00:01,000").toList, ("00:00:02,000").toList, ("ok").toList⟩] := by
  decide

/-! Well-formedness of serialized subtitle text, and round-trip lemmas. -/

/-- First character exists and is not whitespace. -/
def headNotSpace (s : List Char) : Bool :=
  match s.head? with
  | some c => !isSpaceChar c
  | none => false

/-- Last character exists and is not whitespace. -/
def lastNotSpace (s : List Char) : Bool :=
  match s.getLast? with
  | some c => !isSpaceChar c
  | none => false

/-- First character exists and is not a newline. -/
def headNotNl (s : List Char) : Bool :=
  match s.head? with
  | some c => decide (c ≠ '\n')
  | none => false

/-- No two consecutive newlines anywhere, and the text does not end with
a newline. -/
def blockChunk : List Char → Bool
  | [] => true
  | [a] => decide (a ≠ '\n')
  | a :: b :: t => if a = '\n' ∧ b = '\n' then false else blockChunk (b :: t)

/-- A well-formed index line: nonempty digits (the values are arbitrary
and get renumbered on output anyway). -/
def wfIdx (s : List Char) : Bool := decide (s ≠ []) && s.all Char.isDigit

/-- A well-formed entry as serialized by `write_srt` and recoverable by
`parse_srt`: canonical timecodes, no empty text line (an empty line would
split the block), and no trailing whitespace on the final text line
(`block.strip()` would drop it). -/
def wfEntry (e : Entry) : Bool :=
  isTimecode e.start && isTimecode e.«end» &&
    (splitNl e.text).all (fun l => decide (l ≠ [])) && lastNotSpace e.text

/-- One serialized block: index line, timecode line, text. -/
def mkBlock (idx : List Char) (e : Entry) : List Char :=
  idx ++ '\n' :: ((e.start ++ (" --> ").toList ++ e.«end») ++ '\n' :: e.text)

theorem dropWhile_space_nop {s : List Char} (h : headNotSpace s = true) :
    s.dropWhile isSpaceChar = s := by
  cases s with
  | nil => simp [headNotSpace] at h
  | cons c cs =>
    simp only [headNotSpace, List.head?_cons, Bool.not_eq_true'] at h
    simp [List.dropWhile_cons, h]

theorem headNotSpace_reverse {s : List Char} (h : lastNotSpace s = true) :
    headNotSpace s.reverse = true := by
  unfold headNotSpace
  rw [List.head?_reverse]
  exact h

theorem stripList_of_ends {s : List Char} (h1 : headNotSpace s = true)
    (h2 : lastNotSpace s = true) : stripList s = s := by
  unfold stripList
  rw [dropWhile_space_nop h1, dropWhile_space_nop (headNotSpace_reverse h2),
    List.reverse_reverse]

theorem stripList_append_newline {s : List Char} (h1 : headNotSpace s = true)
    (h2 : lastNotSpace s = true) : stripList (s ++ ['\n']) = s := by
  cases s with
  | nil => simp [headNotSpace] at h1
  | cons c cs =>
    unfold stripList
    have hc : isSpaceChar c = false := by
      simp only [headNotSpace, List.head?_cons, Bool.not_eq_true'] at h1
      exact h1
    rw [List.cons_append]
    rw [show ((c :: (cs ++ ['\n'])).dropWhile isSpaceChar) = c :: (cs ++ ['\n']) by
      simp [List.dropWhile_cons, hc]]
    rw [show (c :: (cs ++ ['\n'])) = (c :: cs) ++ ['\n'] by simp]
    rw [List.reverse_append]
    rw [show (['\n'].reverse ++ (c :: cs).reverse) = '\n' :: (c :: cs).reverse by simp]
    rw [show (('\n' :: (c :: cs).reverse).dropWhile isSpaceChar)
        = ((c :: cs).reverse.dropWhile isSpaceChar) by
      simp [List.dropWhile_cons, show isSpaceChar '\n' = true from rfl]]
    rw [dropWhile_space_nop (headNotSpace_reverse h2), List.reverse_reverse]

theorem isTimecode_chars {s : List Char} (h : isTimecode s = true) :
    ∀ c ∈ s, c.isDigit = true ∨ c = ':' ∨ c = ',' := by
  unfold isTimecode at h
  split at h
  · simp only [Bool.and_eq_true, decide_eq_true_eq] at h
    obtain ⟨⟨⟨⟨⟨⟨⟨⟨⟨⟨⟨h1, h2⟩, h3⟩, h4⟩, h5⟩, h6⟩, h7⟩, h8⟩, h9⟩, h10⟩, h11⟩, h12⟩ := h
    intro c hc
    simp only [List.mem_cons, List.not_mem_nil, or_false] at hc
    rcases hc with rfl | rfl | rfl | rfl | rfl | rfl | rfl | rfl | rfl | rfl | rfl | rfl <;>
      tauto
  · exact absurd h (by simp)

theorem isTimecode_no_nl {s : List Char} (h : isTimecode s = true) : '\n' ∉ s := by
  intro hm
  rcases isTimecode_chars h _ hm with hd | hc | hc
  · exact absurd hd (by decide)
  · exact absurd hc (by decide)
  · exact absurd hc (by decide)

theorem isTimecode_head_digit {s : List Char} (h : isTimecode s = true) :
    ∃ a t, s = a :: t ∧ a.isDigit = true := by
  unfold isTimecode at h
  split at h
  · rename_i a b c1 d e c2 f g cm hh ii jj
    simp only [Bool.and_eq_true, decide_eq_true_eq] at h
    exact ⟨a, _, rfl, h.1.1.1.1.1.1.1.1.1.1.1⟩
  · exact absurd h (by simp)

theorem digits_no_nl {s : List Char} (h : s.all Char.isDigit = true) : '\n' ∉ s := by
  intro hm
  rw [List.all_eq_true] at h
  exact absurd (h _ hm) (by decide)

theorem getLast?_append_right {α : Type} {l₁ l₂ : List α} (h : l₂ ≠ []) :
    (l₁ ++ l₂).getLast? = l₂.getLast? := by
  rw [List.getLast?_append]
  rcases hl : l₂.getLast? with _ | c
  · rw [List.getLast?_eq_none_iff] at hl
    exact absurd hl h
  · rfl

theorem lastNotSpace_ne_nil {s : List Char} (h : lastNotSpace s = true) : s ≠ [] := by
  cases s with
  | nil => simp [lastNotSpace] at h
  | cons c cs => simp

theorem takeTimecode_append {s : List Char} (h : isTimecode s = true) (r : List Char) :
    takeTimecode (s ++ r) = some (s, r) := by
  unfold isTimecode at h
  split at h
  · simp only [List.cons_append, List.nil_append, takeTimecode]
    rw [if_pos h]
  · exact absurd h (by simp)

theorem matchTimecodePair_canonical {s e : List Char} (hs : isTimecode s = true)
    (he : isTimecode e = true) :
    matchTimecodePair (s ++ (" --> ").toList ++ e) = some (s, e) := by
  unfold matchTimecodePair
  rw [show s ++ (" --> ").toList ++ e = s ++ ((" --> ").toList ++ e) by simp]
  rw [takeTimecode_append hs]
  dsimp only
  rw [show ((" --> ").toList ++ e) = ' ' :: '-' :: '-' :: '>' :: ' ' :: e from rfl]
  rw [show ((' ' :: '-' :: '-' :: '>' :: ' ' :: e).dropWhile isSpaceChar)
      = '-' :: '-' :: '>' :: ' ' :: e by
    simp [List.dropWhile_cons, show isSpaceChar ' ' = true from rfl,
      show isSpaceChar '-' = false from rfl]]
  rw [show takeArrow ('-' :: '-' :: '>' :: ' ' :: e) = some (' ' :: e) from rfl]
  dsimp only
  have hdrop : (' ' :: e).dropWhile isSpaceChar = e := by
    rw [show (' ' :: e).dropWhile isSpaceChar = e.dropWhile isSpaceChar by
      simp [List.dropWhile_cons, show isSpaceChar ' ' = true from rfl]]
    apply dropWhile_space_nop
    obtain ⟨a, t, rfl, ha⟩ := isTimecode_head_digit he
    simp only [headNotSpace, List.head?_cons]
    simp [isDigit_not_space ha]
  rw [hdrop]
  have htk := takeTimecode_append he ([] : List Char)
  rw [List.append_nil] at htk
  rw [htk]

theorem splitNl_mkBlock (idx : List Char) (e : Entry)
    (hidx : wfIdx idx = true) (he : wfEntry e = true) :
    splitNl (mkBlock idx e)
      = idx :: (e.start ++ (" --> ").toList ++ e.«end») :: splitNl e.text := by
  unfold wfIdx at hidx
  unfold wfEntry at he
  simp only [Bool.and_eq_true, decide_eq_true_eq] at hidx he
  obtain ⟨⟨⟨hs, he2⟩, _⟩, _⟩ := he
  have hnl : '\n' ∉ e.start ++ (" --> ").toList ++ e.«end» := by
    intro hm
    rcases List.mem_append.mp hm with h1 | h1
    · rcases List.mem_append.mp h1 with h2 | h2
      · exact isTimecode_no_nl hs h2
      · exact absurd h2 (by decide)
    · exact isTimecode_no_nl he2 h1
  unfold mkBlock splitNl
  rw [splitOnChar_append_cons _ (digits_no_nl hidx.2),
    splitOnChar_append_cons _ hnl]

theorem headNotSpace_mkBlock (idx : List Char) (e : Entry)
    (hidx : wfIdx idx = true) : headNotSpace (mkBlock idx e) = true := by
  unfold wfIdx at hidx
  simp only [Bool.and_eq_true, decide_eq_true_eq] at hidx
  obtain ⟨hne, hdig⟩ := hidx
  cases idx with
  | nil => exact absurd rfl hne
  | cons a t =>
    have ha : a.isDigit = true := by
      rw [List.all_eq_true] at hdig
      exact hdig a (by simp)
    unfold mkBlock
    simp only [List.cons_append, headNotSpace, List.head?_cons]
    simp [isDigit_not_space ha]

theorem lastNotSpace_mkBlock (idx : List Char) (e : Entry)
    (he : wfEntry e = true) : lastNotSpace (mkBlock idx e) = true := by
  unfold wfEntry at he
  simp only [Bool.and_eq_true, decide_eq_true_eq] at he
  obtain ⟨⟨⟨_, _⟩, _⟩, hlast⟩ := he
  have htne : e.text ≠ [] := lastNotSpace_ne_nil hlast
  unfold mkBlock lastNotSpace
  rw [show ('\n' :: ((e.start ++ (" --> ").toList ++ e.«end») ++ '\n' :: e.text))
      = ('\n' :: (e.start ++ (" --> ").toList ++ e.«end») ++ '\n' :: e.text) by simp]
  rw [getLast?_append_right (by simp : ('\n' :: (e.start ++ (" --> ").toList ++ e.«end»)
      ++ '\n' :: e.text) ≠ [])]
  rw [show ('\n' :: (e.start ++ (" --> ").toList ++ e.«end») ++ '\n' :: e.text)
      = (('\n' :: (e.start ++ (" --> ").toList ++ e.«end») ++ ['\n']) ++ e.text) by simp]
  rw [getLast?_append_right htne]
  unfold lastNotSpace at hlast
  exact hlast

theorem parseBlock_mkBlock (idx : List Char) (e : Entry)
    (hidx : wfIdx idx = true) (he : wfEntry e = true) :
    parseBlock (mkBlock idx e)
      = BlockRes.ok ⟨(parseDec idx : Int), e.start, e.«end», e.text⟩ := by
  have hstrip : stripList (mkBlock idx e) = mkBlock idx e :=
    stripList_of_ends (headNotSpace_mkBlock idx e hidx) (lastNotSpace_mkBlock idx e he)
  have hsplit := splitNl_mkBlock idx e hidx he
  have hwf := he
  unfold wfEntry at hwf
  simp only [Bool.and_eq_true, decide_eq_true_eq] at hwf
  obtain ⟨⟨⟨hs, he2⟩, _⟩, _⟩ := hwf
  have hidx2 := hidx
  unfold wfIdx at hidx2
  simp only [Bool.and_eq_true, decide_eq_true_eq] at hidx2
  unfold parseBlock
  rw [hstrip, hsplit]
  rcases hlines : splitNl e.text with _ | ⟨l2, rest⟩
  · exact absurd hlines (splitOnChar_ne_nil _ _)
  · dsimp only
    rw [matchTimecodePair_canonical hs he2]
    dsimp only
    rw [pyInt_digits hidx2.1 hidx2.2]
    dsimp only
    have htext : joinNl (l2 :: rest) = e.text := by
      rw [← hlines]
      exact joinNl_splitNl e.text
    rw [htext]

/-! Recovering the blocks of a serialized file: `splitBlocks` inverts
joining with double newlines, for pieces that contain no double newline
and neither start nor end with a newline. -/

theorem blockChunk_tail {x : Char} {xs : List Char} (hx : x ≠ '\n')
    (h : blockChunk (x :: xs) = true) : blockChunk xs = true := by
  cases xs with
  | nil => rfl
  | cons y ys =>
    simp only [blockChunk] at h
    rwa [if_neg (fun hc => hx hc.1)] at h

/-- The separator-plus-rest shape of a double-newline join. -/
def sepJoin (bs : List (List Char)) : List Char :=
  match bs with
  | [] => []
  | _ => '\n' :: '\n' :: joinWith ['\n', '\n'] bs

theorem joinWith_cons_sep (b : List Char) (bs : List (List Char)) :
    joinWith ['\n', '\n'] (b :: bs) = b ++ sepJoin bs := by
  cases bs with
  | nil => simp [joinWith, sepJoin]
  | cons q qs => simp [joinWith, sepJoin]

theorem sbAux_nil_zero (bR : List (List Char)) (cR : List Char) :
    sbAux bR cR 0 [] = bR.reverse ++ [cR.reverse] := by
  simp [sbAux]

/-- Feeding a chunk (no double newline, not ending in a newline) moves it
entirely into the current piece; the second conjunct handles entering the
chunk with one pending newline. -/
theorem sbAux_chunk (t : List Char) :
    ∀ xs : List Char,
      (blockChunk xs = true →
        ∀ (bR : List (List Char)) (cR : List Char),
          sbAux bR cR 0 (xs ++ t) = sbAux bR (xs.reverse ++ cR) 0 t)
      ∧ (blockChunk xs = true → headNotNl xs = true →
        ∀ (bR : List (List Char)) (cR : List Char),
          sbAux bR cR 1 (xs ++ t) = sbAux bR (xs.reverse ++ ('\n' :: cR)) 0 t) := by
  intro xs
  induction xs with
  | nil =>
    refine ⟨fun _ bR cR => rfl, fun _ h2 bR cR => ?_⟩
    simp [headNotNl] at h2
  | cons x xs ih =>
    constructor
    · intro hchunk bR cR
      by_cases hx : x = '\n'
      · subst hx
        cases xs with
        | nil => simp [blockChunk] at hchunk
        | cons y ys =>
          have hy : y ≠ '\n' := by
            intro hy
            subst hy
            simp [blockChunk] at hchunk
          have hchunk' : blockChunk (y :: ys) = true := by
            simp only [blockChunk] at hchunk
            rwa [if_neg (fun hc => hy hc.2)] at hchunk
          have hhead' : headNotNl (y :: ys) = true := by
            simp [headNotNl, hy]
          rw [show ('\n' :: (y :: ys)) ++ t = '\n' :: ((y :: ys) ++ t) from rfl]
          rw [show sbAux bR cR 0 ('\n' :: ((y :: ys) ++ t))
              = sbAux bR cR 1 ((y :: ys) ++ t) by simp [sbAux]]
          rw [ih.2 hchunk' hhead' bR cR]
          congr 1
          simp
      · rw [show (x :: xs) ++ t = x :: (xs ++ t) from rfl]
        rw [show sbAux bR cR 0 (x :: (xs ++ t))
            = sbAux bR (x :: cR) 0 (xs ++ t) by simp [sbAux, hx]]
        rw [ih.1 (blockChunk_tail hx hchunk) bR (x :: cR)]
        congr 1
        simp
    · intro hchunk hhead bR cR
      have hx : x ≠ '\n' := by
        simp only [headNotNl, List.head?_cons, decide_eq_true_eq] at hhead
        exact hhead
      rw [show (x :: xs) ++ t = x :: (xs ++ t) from rfl]
      rw [show sbAux bR cR 1 (x :: (xs ++ t))
          = sbAux bR (x :: ('\n' :: cR)) 0 (xs ++ t) by simp [sbAux, hx]]
      rw [ih.1 (blockChunk_tail hx hchunk) bR (x :: ('\n' :: cR))]
      congr 1
      simp

theorem sbAux_boundary (bR : List (List Char)) (cR : List Char) {z : Char}
    (hz : z ≠ '\n') (zs : List Char) :
    sbAux bR cR 0 ('\n' :: '\n' :: z :: zs) = sbAux (cR.reverse :: bR) [z] 0 zs := by
  simp [sbAux, hz]

theorem sbAux_join : ∀ (bs : List (List Char)),
    (∀ x ∈ bs, headNotNl x = true ∧ blockChunk x = true) →
    ∀ (b : List Char), blockChunk b = true →
    ∀ (bR : List (List Char)) (cR : List Char),
      sbAux bR cR 0 (b ++ sepJoin bs) = bR.reverse ++ ((cR.reverse ++ b) :: bs) := by
  intro bs
  induction bs with
  | nil =>
    intro _ b hb bR cR
    rw [show sepJoin [] = [] from rfl]
    rw [(sbAux_chunk [] b).1 hb bR cR, sbAux_nil_zero]
    simp
  | cons q qs ih =>
    intro hbs b hb bR cR
    rw [show sepJoin (q :: qs) = '\n' :: '\n' :: joinWith ['\n', '\n'] (q :: qs) from rfl]
    rw [joinWith_cons_sep]
    rw [show b ++ '\n' :: '\n' :: (q ++ sepJoin qs)
        = b ++ ('\n' :: '\n' :: (q ++ sepJoin qs)) from rfl]
    rw [(sbAux_chunk ('\n' :: '\n' :: (q ++ sepJoin qs)) b).1 hb bR cR]
    obtain ⟨hqh, hqc⟩ := hbs q (by simp)
    cases q with
    | nil => simp [headNotNl] at hqh
    | cons z zt =>
      have hz : z ≠ '\n' := by
        simp only [headNotNl, List.head?_cons, decide_eq_true_eq] at hqh
        exact hqh
      rw [show ((z :: zt) ++ sepJoin qs) = z :: (zt ++ sepJoin qs) from rfl]
      rw [sbAux_boundary _ _ hz]
      rw [ih (fun x hx => hbs x (by simp [hx])) zt (blockChunk_tail hz hqc) _ _]
      simp [List.append_assoc]

theorem splitBlocks_joinWith (b : List Char) (bs : List (List Char))
    (hb : blockChunk b = true)
    (hbs : ∀ x ∈ bs, headNotNl x = true ∧ blockChunk x = true) :
    splitBlocks (joinWith ['\n', '\n'] (b :: bs)) = b :: bs := by
  unfold splitBlocks
  rw [joinWith_cons_sep, sbAux_join bs hbs b hb [] []]
  simp

/-! Well-formed entry texts give good blocks. -/

theorem text_headNotNl {text : List Char}
    (h : ∀ line ∈ splitNl text, line ≠ []) : headNotNl text = true := by
  cases text with
  | nil => exact absurd rfl (h [] (by simp [splitNl, splitOnChar]))
  | cons x xs =>
    have hx : x ≠ '\n' := by
      intro hc
      subst hc
      exact h [] (by simp [splitNl, splitOnChar]) rfl
    simp [headNotNl, hx]

theorem text_blockChunk_fuel : ∀ (n : Nat) (text : List Char), text.length ≤ n →
    (∀ line ∈ splitNl text, line ≠ []) → blockChunk text = true := by
  intro n
  induction n with
  | zero =>
    intro text hlen _
    cases text with
    | nil => rfl
    | cons x xs => simp at hlen
  | succ n ihn =>
    intro text hlen h
    match text with
    | [] => rfl
    | [x] =>
      have hx : x ≠ '\n' := by
        intro hc
        subst hc
        exact h [] (by simp [splitNl, splitOnChar]) rfl
      simp [blockChunk, hx]
    | x :: y :: t =>
      have hx : x ≠ '\n' := by
        intro hc
        subst hc
        exact h [] (by simp [splitNl, splitOnChar]) rfl
      simp only [blockChunk]
      rw [if_neg (fun hc => hx hc.1)]
      by_cases hy : y = '\n'
      · subst hy
        have hlt : ∀ line ∈ splitNl t, line ≠ [] := by
          intro line hm
          apply h line
          have hsx : splitNl (x :: '\n' :: t) = [x] :: splitNl t := by
            simp [splitNl, splitOnChar, hx, consHead]
          rw [hsx]
          simp [hm]
        cases t with
        | nil => exact absurd rfl (hlt [] (by simp [splitNl, splitOnChar]))
        | cons u v =>
          have hu : u ≠ '\n' := by
            intro hc
            subst hc
            exact hlt [] (by simp [splitNl, splitOnChar]) rfl
          simp only [blockChunk]
          rw [if_neg (fun hc => hu hc.2)]
          exact ihn (u :: v) (by simp at hlen ⊢; omega) hlt
      · have hline : ∀ line ∈ splitNl (y :: t), line ≠ [] := by
          rcases hsp : splitNl t with _ | ⟨h1, t1⟩
          · exact absurd hsp (splitOnChar_ne_nil _ _)
          · have hsy : splitNl (y :: t) = (y :: h1) :: t1 := by
              simp only [splitNl, splitOnChar] at hsp ⊢
              rw [if_neg hy, hsp]
              rfl
            have hsx : splitNl (x :: y :: t) = (x :: y :: h1) :: t1 := by
              simp only [splitNl, splitOnChar] at hsp ⊢
              rw [if_neg hy, if_neg hx, hsp]
              rfl
            intro line hm
            rw [hsy] at hm
            rcases List.mem_cons.mp hm with rfl | hm2
            · simp
            · exact h line (by rw [hsx]; simp [hm2])
        exact ihn (y :: t) (by simp at hlen ⊢; omega) hline

theorem text_blockChunk {text : List Char}
    (h : ∀ line ∈ splitNl text, line ≠ []) : blockChunk text = true :=
  text_blockChunk_fuel text.length text (le_refl _) h

theorem headNotNl_append {u v : List Char} (h : headNotNl u = true) :
    headNotNl (u ++ v) = true := by
  cases u with
  | nil => simp [headNotNl] at h
  | cons a t => simpa [headNotNl, List.head?_cons] using h

theorem blockChunk_glue {u w : List Char} (hu : u ≠ []) (hun : '\n' ∉ u)
    (hwh : headNotNl w = true) (hwc : blockChunk w = true) :
    blockChunk (u ++ '\n' :: w) = true := by
  induction u with
  | nil => exact absurd rfl hu
  | cons x u' ih =>
    simp only [List.mem_cons, not_or] at hun
    have hx : x ≠ '\n' := fun hc => hun.1 hc.symm
    cases u' with
    | nil =>
      show blockChunk (x :: '\n' :: w) = true
      simp only [blockChunk]
      rw [if_neg (fun hc => hx hc.1)]
      cases w with
      | nil => simp [headNotNl] at hwh
      | cons y t =>
        have hy : y ≠ '\n' := by
          simp only [headNotNl, List.head?_cons, decide_eq_true_eq] at hwh
          exact hwh
        simp only [blockChunk]
        rw [if_neg (fun hc => hy hc.2)]
        exact hwc
    | cons z u'' =>
      show blockChunk (x :: ((z :: u'') ++ '\n' :: w)) = true
      simp only [List.cons_append, blockChunk]
      rw [if_neg (fun hc => hx hc.1)]
      have := ih (by simp) (fun hm => hun.2 hm)
      simpa using this

theorem tcline_no_nl {e : Entry} (hs : isTimecode e.start = true)
    (he2 : isTimecode e.«end» = true) :
    '\n' ∉ e.start ++ (" --> ").toList ++ e.«end» := by
  intro hm
  rcases List.mem_append.mp hm with h1 | h1
  · rcases List.mem_append.mp h1 with h2 | h2
    · exact isTimecode_no_nl hs h2
    · exact absurd h2 (by decide)
  · exact isTimecode_no_nl he2 h1

theorem headNotNl_mkBlock (idx : List Char) (e : Entry)
    (hidx : wfIdx idx = true) : headNotNl (mkBlock idx e) = true := by
  unfold wfIdx at hidx
  simp only [Bool.and_eq_true, decide_eq_true_eq] at hidx
  obtain ⟨hne, hdig⟩ := hidx
  cases idx with
  | nil => exact absurd rfl hne
  | cons a t =>
    have ha : a.isDigit = true := by
      rw [List.all_eq_true] at hdig
      exact hdig a (by simp)
    have ha2 : a ≠ '\n' := by
      intro hc
      subst hc
      exact absurd ha (by decide)
    unfold mkBlock
    simp [headNotNl, List.head?_cons, ha2]

theorem blockChunk_mkBlock (idx : List Char) (e : Entry)
    (hidx : wfIdx idx = true) (he : wfEntry e = true) :
    blockChunk (mkBlock idx e) = true := by
  have hidx2 := hidx
  unfold wfIdx at hidx2
  simp only [Bool.and_eq_true, decide_eq_true_eq] at hidx2
  have hwf := he
  unfold wfEntry at hwf
  simp only [Bool.and_eq_true, decide_eq_true_eq] at hwf
  obtain ⟨⟨⟨hs, he2⟩, hlines⟩, _⟩ := hwf
  have hlines2 : ∀ line ∈ splitNl e.text, line ≠ [] := by
    rw [List.all_eq_true] at hlines
    intro line hm
    have := hlines line hm
    simpa using this
  have htc : isTimecode e.start = true := hs
  obtain ⟨a, t, hst, ha⟩ := isTimecode_head_digit htc
  unfold mkBlock
  apply blockChunk_glue hidx2.1 (digits_no_nl hidx2.2)
  · apply headNotNl_append
    rw [hst]
    have ha2 : a ≠ '\n' := by
      intro hc
      subst hc
      exact absurd ha (by decide)
    simp [headNotNl, List.head?_cons, ha2]
  · apply blockChunk_glue
    · rw [hst]; simp
    · exact tcline_no_nl hs he2
    · exact text_headNotNl hlines2
    · exact text_blockChunk hlines2

/-! Structure of the serialized text: blocks joined by blank lines plus a
trailing newline. -/

theorem joinWith_cons_ne (sep x : List Char) {l : List (List Char)} (h : l ≠ []) :
    joinWith sep (x :: l) = x ++ sep ++ joinWith sep l := by
  cases l with
  | nil => exact absurd rfl h
  | cons y t => rfl

theorem catMap_entryLines_ne_nil (p : List Char × Entry) (ps : List (List Char × Entry)) :
    catMap (fun pe => entryLines pe.1 pe.2) (p :: ps) ≠ [] := by
  simp [catMap, entryLines]

theorem srtAll_blocks : ∀ (ps : List (List Char × Entry)), ps ≠ [] →
    joinNl (catMap (fun pe => entryLines pe.1 pe.2) ps)
      = joinWith ['\n', '\n'] (ps.map (fun pe => mkBlock pe.1 pe.2)) ++ ['\n'] := by
  intro ps
  induction ps with
  | nil => intro h; exact absurd rfl h
  | cons p ps ih =>
    intro _
    cases ps with
    | nil =>
      show joinNl (entryLines p.1 p.2 ++
          catMap (fun pe => entryLines pe.1 pe.2) ([] : List (List Char × Entry)))
        = joinWith ['\n', '\n'] [mkBlock p.1 p.2] ++ ['\n']
      simp only [catMap, List.append_nil]
      unfold entryLines joinNl mkBlock
      simp [joinWith, List.append_assoc]
    | cons q qs =>
      have hM := catMap_entryLines_ne_nil q qs
      show joinNl (entryLines p.1 p.2 ++ catMap (fun pe => entryLines pe.1 pe.2) (q :: qs))
        = joinWith ['\n', '\n'] (mkBlock p.1 p.2 ::
            (q :: qs).map (fun pe => mkBlock pe.1 pe.2)) ++ ['\n']
      rw [show entryLines p.1 p.2 ++ catMap (fun pe => entryLines pe.1 pe.2) (q :: qs)
          = p.1 :: (p.2.start ++ (" --> ").toList ++ p.2.«end») :: p.2.text :: ([] : List Char)
            :: catMap (fun pe => entryLines pe.1 pe.2) (q :: qs) from rfl]
      unfold joinNl
      rw [show joinWith ['\n']
            (p.1 :: (p.2.start ++ (" --> ").toList ++ p.2.«end») :: p.2.text :: ([] : List Char)
              :: catMap (fun pe => entryLines pe.1 pe.2) (q :: qs))
          = p.1 ++ ['\n'] ++ ((p.2.start ++ (" --> ").toList ++ p.2.«end») ++ ['\n'] ++
              (p.2.text ++ ['\n'] ++ joinWith ['\n']
                (([] : List Char) :: catMap (fun pe => entryLines pe.1 pe.2) (q :: qs))))
          from rfl]
      rw [joinWith_cons_ne _ _ hM]
      have ihq := ih (by simp)
      unfold joinNl at ihq
      rw [ihq]
      rw [joinWith_cons_ne _ _ (by simp : (q :: qs).map (fun pe => mkBlock pe.1 pe.2) ≠ [])]
      unfold mkBlock
      simp [List.append_assoc]

theorem headNotSpace_append {u v : List Char} (h : headNotSpace u = true) :
    headNotSpace (u ++ v) = true := by
  cases u with
  | nil => simp [headNotSpace] at h
  | cons a t => simpa [headNotSpace, List.head?_cons] using h

theorem headNotSpace_joinWith {sep b0 : List Char} (bs : List (List Char))
    (h : headNotSpace b0 = true) : headNotSpace (joinWith sep (b0 :: bs)) = true := by
  cases bs with
  | nil => exact h
  | cons q qs =>
    rw [joinWith_cons_ne _ _ (by simp)]
    exact headNotSpace_append (headNotSpace_append h)

theorem lastNotSpace_append {u v : List Char} (h : lastNotSpace v = true) :
    lastNotSpace (u ++ v) = true := by
  unfold lastNotSpace at *
  rw [getLast?_append_right (lastNotSpace_ne_nil h)]
  exact h

theorem lastNotSpace_joinWith {sep : List Char} : ∀ (bs : List (List Char)) (b0 : List Char),
    (∀ x ∈ b0 :: bs, lastNotSpace x = true) →
    lastNotSpace (joinWith sep (b0 :: bs)) = true := by
  intro bs
  induction bs with
  | nil =>
    intro b0 h
    exact h b0 (by simp)
  | cons q qs ih =>
    intro b0 h
    rw [joinWith_cons_ne _ _ (by simp)]
    exact lastNotSpace_append (ih q (fun x hx => h x (List.mem_cons_of_mem _ hx)))

theorem parseBlocksGo_mkBlocks : ∀ (ps : List (List Char × Entry)),
    (∀ pe ∈ ps, wfIdx pe.1 = true ∧ wfEntry pe.2 = true) →
    parseBlocksGo (ps.map (fun pe => mkBlock pe.1 pe.2))
      = some (ps.map (fun pe => { pe.2 with index := (parseDec pe.1 : Int) })) := by
  intro ps
  induction ps with
  | nil => intro _; rfl
  | cons p ps ih =>
    intro h
    obtain ⟨h1, h2⟩ := h p (by simp)
    rw [List.map_cons]
    simp only [parseBlocksGo]
    rw [parseBlock_mkBlock p.1 p.2 h1 h2]
    dsimp only
    rw [ih (fun pe hm => h pe (List.mem_cons_of_mem _ hm))]
    rfl

theorem catMap_map {α β γ : Type} (h : β → List γ) (f : α → β) (l : List α) :
    catMap h (l.map f) = catMap (fun x => h (f x)) l := by
  induction l with
  | nil => rfl
  | cons a t ih => simp [catMap, ih]

theorem catMap_congr {α β : Type} {h1 h2 : α → List β} (l : List α)
    (hx : ∀ x ∈ l, h1 x = h2 x) : catMap h1 l = catMap h2 l := by
  induction l with
  | nil => rfl
  | cons a t ih =>
    rw [catMap, catMap, hx a (by simp), ih (fun x hm => hx x (List.mem_cons_of_mem _ hm))]

theorem zip_map_right' {α β γ : Type} (f : β → γ) : ∀ (l₁ : List α) (l₂ : List β),
    l₁.zip (l₂.map f) = (l₁.zip l₂).map (fun p => (p.1, f p.2)) := by
  intro l₁
  induction l₁ with
  | nil => intro l₂; simp
  | cons a t ih =>
    intro l₂
    cases l₂ with
    | nil => simp
    | cons b u => simp [ih]

theorem srtAll_reindex (idxs2 idxs : List (List Char)) (es : List Entry)
    (hlen : idxs.length = es.length) :
    srtAll idxs2 ((idxs.zip es).map (fun pe => { pe.2 with index := (parseDec pe.1 : Int) }))
      = srtAll idxs2 es := by
  unfold srtAll
  congr 1
  rw [zip_map_right', catMap_map]
  conv_rhs =>
    rw [show es = (idxs.zip es).map Prod.snd from
      (List.map_snd_zip idxs es (le_of_eq hlen.symm)).symm]
  rw [zip_map_right', catMap_map]
  apply catMap_congr
  intro x _
  rfl

/-- C7: round trip.  A syntactically valid subtitle text is exactly
`srtAll idxs es` for well-formed index lines and entries; parsing it
yields the entries with the indices read from the text, and serializing
that parse result reproduces the text exactly except that the index
lines are rewritten to `1..N`. -/
theorem parse_srt_write_srt_roundtrip :
    ∀ (idxs : List (List Char)) (es : List Entry),
      idxs.length = es.length →
      (∀ s ∈ idxs, wfIdx s = true) →
      (∀ e ∈ es, wfEntry e = true) →
      parse_srt (srtAll idxs es)
        = some ((idxs.zip es).map (fun pe => { pe.2 with index := (parseDec pe.1 : Int) }))
      ∧ write_srt ((idxs.zip es).map (fun pe => { pe.2 with index := (parseDec pe.1 : Int) }))
        = srtAll (canonIdxs es.length) es := by
  intro idxs es hlen hi he
  have hps : ∀ pe ∈ idxs.zip es, wfIdx pe.1 = true ∧ wfEntry pe.2 = true := by
    intro pe hm
    rcases pe with ⟨a, b⟩
    obtain ⟨ha, hb⟩ := List.of_mem_zip hm
    exact ⟨hi a ha, he b hb⟩
  constructor
  · cases hzip : idxs.zip es with
    | nil =>
      have hempty : srtAll idxs es = [] := by
        unfold srtAll
        rw [hzip]
        rfl
      rw [hempty]
      decide
    | cons p ps =>
      rw [hzip] at hps
      have hsrt : srtAll idxs es
          = joinWith ['\n', '\n'] ((p :: ps).map (fun pe => mkBlock pe.1 pe.2)) ++ ['\n'] := by
        unfold srtAll
        rw [hzip]
        exact srtAll_blocks (p :: ps) (by simp)
      unfold parse_srt
      rw [hsrt]
      rw [stripList_append_newline
        (by
          rw [List.map_cons]
          exact headNotSpace_joinWith _ (headNotSpace_mkBlock p.1 p.2 (hps p (by simp)).1))
        (by
          rw [List.map_cons]
          apply lastNotSpace_joinWith
          intro x hx
          rcases List.mem_cons.mp hx with rfl | hx2
          · exact lastNotSpace_mkBlock p.1 p.2 (hps p (by simp)).2
          · obtain ⟨pe, hpe, rfl⟩ := List.mem_map.mp hx2
            exact lastNotSpace_mkBlock pe.1 pe.2 (hps pe (List.mem_cons_of_mem _ hpe)).2)]
      rw [List.map_cons]
      rw [splitBlocks_joinWith _ _
        (blockChunk_mkBlock p.1 p.2 (hps p (by simp)).1 (hps p (by simp)).2)
        (by
          intro x hx
          obtain ⟨pe, hpe, rfl⟩ := List.mem_map.mp hx
          have hpe2 := hps pe (List.mem_cons_of_mem _ hpe)
          exact ⟨headNotNl_mkBlock pe.1 pe.2 hpe2.1,
            blockChunk_mkBlock pe.1 pe.2 hpe2.1 hpe2.2⟩)]
      exact parseBlocksGo_mkBlocks (p :: ps) hps
  · have hL : ((idxs.zip es).map
        (fun pe => { pe.2 with index := (parseDec pe.1 : Int) })).length = es.length := by
      simp [List.length_zip, hlen]
    unfold write_srt
    rw [hL]
    exact srtAll_reindex (canonIdxs es.length) idxs es hlen

/-- Witness for C7 at a concrete one-cue file with original index line 7. -/
theorem parse_srt_write_srt_roundtrip_witness :
    parse_srt (srtAll [("7").toList]
        [⟨0, ("00:00:01,000").toList, ("00:00:02,000").toList, ("hello").toList⟩])
      = some [⟨7, ("00:00:01,000").toList, ("00:00:02,000").toList, ("hello").toList⟩]
    ∧ write_srt [⟨7, ("00:00:01,000").toList, ("00:00:02,000").toList, ("hello").toList⟩]
      = srtAll (canonIdxs 1)
          [⟨0, ("00:00:01,000").toList, ("00:00:02,000").toList, ("hello").toList⟩] :=
  parse_srt_write_srt_roundtrip [("7").toList]
    [⟨0, ("00:00:01,000").toList, ("00:00:02,000").toList, ("hello").toList⟩]
    (by decide) (by decide) (by decide)
